import Mathlib

/-!
Verification of the video-listing ingestion engine against its specification.

The Go sources are embedded shallowly: pure helpers become Lean functions,
filesystem and network interaction is made explicit through entry lists and
outcome oracles, and Go `time.Duration` / `time.Time` values are modelled as
natural numbers of nanoseconds.  Definitions follow the Go control flow of the
corresponding functions; divergences of the specification from that behaviour
are exhibited on concrete inputs.
-/

namespace VideoListing

/-! ## Thumbnail timecode selection (thumbnail/thumbnail.go, Create)

`Create` probes the duration, then gathers sample timecodes with one of two
`for t := start; t < stop; t += step` loops.  Durations are nanosecond counts
(`time.Duration`); integer division is Go division on positive values.
`sampleTimes` models such a loop; the loop never terminates when the step is
zero while the bound is not yet reached, which the model maps to `none`.
-/

def nsPerMinute : Nat := 60 * 1000000000

def sampleTimes (t stop step : Nat) : Option (List Nat) :=
  if _ht : t < stop then
    if _hs : 0 < step then
      (sampleTimes (t + step) stop step).map (fun rest => t :: rest)
    else none
  else some []
termination_by stop - t
decreasing_by omega

/-- The timecodes sampled by `thumbnail.Create` for a probed duration
(nanoseconds):  for durations above ten minutes, from 2 min while below
`duration - 2 min` in steps of `(duration - 4 min) / 5`; otherwise from 0
while below `duration` in steps of `duration / 5`. -/
def createTimeCodes (duration : Nat) : Option (List Nat) :=
  if duration > 10 * nsPerMinute then
    sampleTimes (2 * nsPerMinute) (duration - 2 * nsPerMinute)
      ((duration - 4 * nsPerMinute) / 5)
  else
    sampleTimes 0 duration (duration / 5)

/-- Ceiling division, used to count loop iterations. -/
def ceilDivN (a b : Nat) : Nat := (a + b - 1) / b

theorem ceilDivN_pos_step {A step : Nat} (hs : 0 < step) (hA : 0 < A) :
    ceilDivN A step = ceilDivN (A - step) step + 1 := by
  unfold ceilDivN
  rcases le_or_lt A step with h | h
  · have h1 : A - step = 0 := by omega
    rw [h1]
    have h2 : (A + step - 1) / step = 1 := by
      apply Nat.div_eq_of_lt_le
      · omega
      · simpa using by omega
    have h3 : (0 + step - 1) / step = 0 := Nat.div_eq_of_lt (by omega)
    rw [h2, h3]
  · have h4 : A + step - 1 = (A - step + step - 1) + step := by omega
    rw [h4, Nat.add_div_right _ hs]

theorem ceilDivN_zero (step : Nat) (hs : 0 < step) : ceilDivN 0 step = 0 := by
  unfold ceilDivN
  exact Nat.div_eq_of_lt (by omega)

/-- A terminating sampling loop is the arithmetic progression
`t, t+step, …` with `⌈(stop-t)/step⌉` elements. -/
theorem sampleTimes_eq_progression (step : Nat) (hs : 0 < step) (stop : Nat) :
    ∀ t, sampleTimes t stop step =
      some ((List.range (ceilDivN (stop - t) step)).map (fun k => t + k * step)) := by
  have main : ∀ m t, stop - t ≤ m → sampleTimes t stop step =
      some ((List.range (ceilDivN (stop - t) step)).map (fun k => t + k * step)) := by
    intro m
    induction m with
    | zero =>
      intro t ht
      have h1 : ¬ t < stop := by omega
      have h2 : stop - t = 0 := by omega
      rw [sampleTimes]
      simp [h1, h2, ceilDivN_zero step hs]
    | succ n ih =>
      intro t ht
      by_cases h : t < stop
      · rw [sampleTimes]
        simp only [h, dif_pos, hs]
        rw [ih (t + step) (by omega)]
        have harith : ceilDivN (stop - t) step = ceilDivN (stop - (t + step)) step + 1 := by
          have : stop - (t + step) = (stop - t) - step := by omega
          rw [this]
          exact ceilDivN_pos_step hs (by omega)
        rw [harith, Option.map_some', List.range_succ_eq_map]
        simp only [List.map_cons, List.map_map, Nat.zero_mul, Nat.add_zero]
        congr 1
        congr 1
        refine List.map_congr_left ?_
        intro a _
        simp only [Function.comp_apply]
        rw [Nat.succ_eq_add_one]
        ring
      · have h2 : stop - t = 0 := by omega
        rw [sampleTimes]
        simp [h, h2, ceilDivN_zero step hs]
  intro t
  exact main (stop - t) t le_rfl

theorem ceilDivN_div_five (D : Nat) (hD : 25 ≤ D) :
    ceilDivN D (D / 5) = if D % 5 = 0 then 5 else 6 := by
  have hmod : 5 * (D / 5) + D % 5 = D := Nat.div_add_mod D 5
  have hq : 5 ≤ D / 5 := by omega
  have hr : D % 5 < 5 := Nat.mod_lt _ (by omega)
  unfold ceilDivN
  by_cases h : D % 5 = 0
  · rw [if_pos h]
    exact Nat.div_eq_of_lt_le (by omega) (by omega)
  · rw [if_neg h]
    exact Nat.div_eq_of_lt_le (by omega) (by omega)

/-- C7, counterexample: for the six-nanosecond duration the loop
`for t := 0; t < d; t += d/5` appends six timecodes, not five. -/
theorem createTimeCodes_claim_false :
    createTimeCodes 6 = some [0, 1, 2, 3, 4, 5] ∧
      ([0, 1, 2, 3, 4, 5] : List Nat).length ≠ 5 := by
  constructor
  · have h6 : ¬ (6 > 10 * nsPerMinute) := by decide
    unfold createTimeCodes
    rw [if_neg h6]
    rw [sampleTimes_eq_progression 1 one_pos 6 0]
    decide
  · decide

/-- C7, amended: the sampled timecodes form the arithmetic progression of the
corresponding Go loop.  Above ten minutes they are `2min + k·q` with
`q = (d - 4min)/5`, five of them when 5 divides `d - 4min` and six otherwise;
for `5 ≤ d ≤ 10min` they are `k·(d/5)` for `k < ⌈d/(d/5)⌉` (five to nine
samples); for `0 < d < 5` ns the sampling loop does not terminate. -/
theorem createTimeCodes_amended (d : Nat) (hd : 0 < d) :
    (10 * nsPerMinute < d →
        createTimeCodes d =
          some ((List.range (if (d - 4 * nsPerMinute) % 5 = 0 then 5 else 6)).map
            (fun k => 2 * nsPerMinute + k * ((d - 4 * nsPerMinute) / 5)))) ∧
    (d ≤ 10 * nsPerMinute → 5 ≤ d →
        createTimeCodes d =
          some ((List.range (ceilDivN d (d / 5))).map (fun k => k * (d / 5)))) ∧
    (d < 5 → createTimeCodes d = none) := by
  refine ⟨?_, ?_, ?_⟩
  · intro h
    have hmin : (0 : Nat) < nsPerMinute := by decide
    have hD : 25 ≤ d - 4 * nsPerMinute := by
      unfold nsPerMinute at h ⊢
      omega
    have hstep : 0 < (d - 4 * nsPerMinute) / 5 := by omega
    unfold createTimeCodes
    rw [if_pos h]
    rw [sampleTimes_eq_progression _ hstep _ _]
    have harg : d - 2 * nsPerMinute - 2 * nsPerMinute = d - 4 * nsPerMinute := by
      omega
    rw [harg, ceilDivN_div_five _ hD]
  · intro h1 h2
    have hstep : 0 < d / 5 := by omega
    unfold createTimeCodes
    rw [if_neg (by omega)]
    rw [sampleTimes_eq_progression _ hstep _ _]
    simp
  · intro h
    have hstep : d / 5 = 0 := by omega
    unfold createTimeCodes
    rw [if_neg (by unfold nsPerMinute; omega), hstep, sampleTimes]
    simp [hd]

/-- Concrete instance of the amended C7 statement at duration 6 ns. -/
theorem createTimeCodes_amended_witness :
    createTimeCodes 6 = some ((List.range (ceilDivN 6 (6 / 5))).map (fun k => k * (6 / 5))) :=
  (createTimeCodes_amended 6 (by decide)).2.1 (by decide) (by decide)

/-! ## Listing title trimming (server/listing.go)

`commonLength` scans offsets `0 .. len(strings[0])-1`; at each offset it
returns `offset` as soon as some string has exactly that length or disagrees
with `strings[0]` at that position (counted from the front for the prefix
variant, from the back for the suffix variant); if the scan of `strings[0]`
completes without returning, the result is 0.  File names are modelled as
`List Char` (Go indexes bytes; the names relevant here are ASCII).  Within a
scanned row every string triggering a return yields the same value `offset`,
so the ordered inner loop is modelled with `List.any`.
-/

def rowStop (l : List (List Char)) (s0 : List Char) (isPre : Bool) (offset : Nat) : Bool :=
  l.any (fun s =>
    s.length == offset ||
      (if isPre then s[offset]? != s0[offset]?
       else s[s.length - 1 - offset]? != s0[s0.length - 1 - offset]?))

def commonLength (l : List (List Char)) (isPre : Bool) : Nat :=
  if l.length < 2 then 0
  else
    match (List.range l.headI.length).find? (rowStop l l.headI isPre) with
    | some offset => offset
    | none => 0

/-- Go slice expression `name[lo:hi]`; `none` models the runtime panic when
the bounds are invalid. -/
def goSlice (name : List Char) (lo hi : Int) : Option (List Char) :=
  if 0 ≤ lo ∧ lo ≤ hi ∧ hi ≤ (name.length : Int) then
    some ((name.take hi.toNat).drop lo.toNat)
  else none

/-- `ServeListing`: `input.Files[i].Title[prefixLen : len(title)-suffixLen]`. -/
def trimTitle (p q : Nat) (name : List Char) : Option (List Char) :=
  goSlice name (p : Int) ((name.length : Int) - (q : Int))

/-- The post-processing step of `ServeListing`: for more than one file,
strip the common prefix and suffix lengths computed by `commonLength` from
every title; with at most one file nothing is trimmed. -/
def trimTitles (names : List (List Char)) : Option (List (List Char)) :=
  if names.length > 1 then
    names.mapM (trimTitle (commonLength names true) (commonLength names false))
  else some names

/-- Specification-side definition (from the spec's words): the longest common
prefix of two strings, character-wise. -/
def affix2 : List Char → List Char → List Char
  | a :: as, b :: bs => if a = b then a :: affix2 as bs else []
  | _, _ => []

/-- Specification-side: the longest affix shared by every name in the list. -/
def lcpAll : List (List Char) → List Char
  | [] => []
  | s :: rest => rest.foldl affix2 s

def lcpLen (l : List (List Char)) : Nat := (lcpAll l).length

def lcsLen (l : List (List Char)) : Nat := (lcpAll (l.map List.reverse)).length

/-- C8, counterexample: for names `["ab", "abc"]` the longest common prefix
is `"ab"` (length 2), the longest common suffix is empty, and `2 + 0 ≤ 2`,
so the claim requires trimmed titles `["", "c"]`; but `commonLength` scans
all of `strings[0]` without a stop and returns 0, so nothing is trimmed. -/
theorem trimTitles_claim_false :
    lcpLen [['a','b'], ['a','b','c']] = 2 ∧
    lcsLen [['a','b'], ['a','b','c']] = 0 ∧
    (∀ s ∈ [['a','b'], ['a','b','c']], 2 + 0 ≤ s.length) ∧
    trimTitles [['a','b'], ['a','b','c']] = some [['a','b'], ['a','b','c']] ∧
    trimTitles [['a','b'], ['a','b','c']] ≠ some [[], ['c']] := by
  refine ⟨by decide, by decide, by decide, by decide, by decide⟩

/-- `c` is an initial segment of `s`. -/
def SegTo (c s : List Char) : Prop := s.take c.length = c

theorem segTo_length_le {c s : List Char} (h : SegTo c s) : c.length ≤ s.length := by
  unfold SegTo at h
  have hl := congrArg List.length h
  simp [List.length_take] at hl
  omega

theorem segTo_refl (s : List Char) : SegTo s s := by
  unfold SegTo
  exact List.take_length s

theorem segTo_trans {c d s : List Char} (h1 : SegTo c d) (h2 : SegTo d s) : SegTo c s := by
  unfold SegTo at h1 h2 ⊢
  have hle : c.length ≤ d.length := segTo_length_le h1
  calc s.take c.length = (s.take d.length).take c.length := by
        rw [List.take_take, Nat.min_eq_left hle]
    _ = d.take c.length := by rw [h2]
    _ = c := h1

theorem segTo_cons {z : Char} {c s : List Char} (h : SegTo (z :: c) s) :
    ∃ s', s = z :: s' ∧ SegTo c s' := by
  unfold SegTo at h
  cases s with
  | nil => simp at h
  | cons w s' =>
    simp only [List.length_cons, List.take_succ_cons, List.cons.injEq] at h
    exact ⟨s', by rw [h.1], h.2⟩

theorem affix2_nil_left (b : List Char) : affix2 [] b = [] := rfl

theorem affix2_nil_right (a : List Char) : affix2 a [] = [] := by
  cases a <;> rfl

theorem affix2_cons (x : Char) (as : List Char) (y : Char) (bs : List Char) :
    affix2 (x :: as) (y :: bs) = if x = y then x :: affix2 as bs else [] := rfl

theorem affix2_segTo_left : ∀ a b : List Char, SegTo (affix2 a b) a := by
  intro a
  induction a with
  | nil => intro b; rw [affix2_nil_left]; exact segTo_refl []
  | cons x as ih =>
    intro b
    cases b with
    | nil => rw [affix2_nil_right]; unfold SegTo; simp
    | cons y bs =>
      rw [affix2_cons]
      by_cases hxy : x = y
      · subst hxy
        rw [if_pos rfl]
        unfold SegTo
        rw [List.length_cons, List.take_succ_cons]
        have h := ih bs
        unfold SegTo at h
        rw [h]
      · rw [if_neg hxy]
        unfold SegTo; simp

theorem affix2_segTo_right : ∀ a b : List Char, SegTo (affix2 a b) b := by
  intro a
  induction a with
  | nil => intro b; rw [affix2_nil_left]; unfold SegTo; simp
  | cons x as ih =>
    intro b
    cases b with
    | nil => rw [affix2_nil_right]; exact segTo_refl []
    | cons y bs =>
      rw [affix2_cons]
      by_cases hxy : x = y
      · subst hxy
        rw [if_pos rfl]
        unfold SegTo
        rw [List.length_cons, List.take_succ_cons]
        have h := ih bs
        unfold SegTo at h
        rw [h]
      · rw [if_neg hxy]
        unfold SegTo; simp

theorem segTo_affix2 : ∀ c a b : List Char, SegTo c a → SegTo c b → SegTo c (affix2 a b) := by
  intro c
  induction c with
  | nil => intro a b _ _; unfold SegTo; simp
  | cons z c' ih =>
    intro a b ha hb
    obtain ⟨a', rfl, ha'⟩ := segTo_cons ha
    obtain ⟨b', rfl, hb'⟩ := segTo_cons hb
    rw [affix2_cons, if_pos rfl]
    unfold SegTo
    simp only [List.length_cons, List.take_succ_cons, List.cons.injEq, true_and]
    exact ih a' b' ha' hb'

theorem foldl_affix2_segTo_acc (rest : List (List Char)) :
    ∀ acc, SegTo (rest.foldl affix2 acc) acc := by
  induction rest with
  | nil => intro acc; exact segTo_refl acc
  | cons r rs ih =>
    intro acc
    have h1 := ih (affix2 acc r)
    exact segTo_trans (by simpa using h1) (affix2_segTo_left acc r)

theorem foldl_affix2_segTo_mem (rest : List (List Char)) :
    ∀ acc, ∀ r ∈ rest, SegTo (rest.foldl affix2 acc) r := by
  induction rest with
  | nil => intro acc r hr; simp at hr
  | cons r0 rs ih =>
    intro acc r hr
    rcases List.mem_cons.mp hr with rfl | hr
    · exact segTo_trans (foldl_affix2_segTo_acc rs (affix2 acc r))
        (affix2_segTo_right acc r)
    · exact ih (affix2 acc r0) r hr

theorem segTo_foldl_affix2 (rest : List (List Char)) :
    ∀ acc c, SegTo c acc → (∀ r ∈ rest, SegTo c r) → SegTo c (rest.foldl affix2 acc) := by
  induction rest with
  | nil => intro acc c hacc _; exact hacc
  | cons r rs ih =>
    intro acc c hacc hall
    refine ih (affix2 acc r) c ?_ ?_
    · exact segTo_affix2 c acc r hacc (hall r (by simp))
    · intro r' hr'
      exact hall r' (by simp [hr'])

theorem lcpAll_segTo {l : List (List Char)} {s : List Char} (hs : s ∈ l) :
    SegTo (lcpAll l) s := by
  cases l with
  | nil => simp at hs
  | cons s0 rest =>
    rcases List.mem_cons.mp hs with rfl | hs
    · exact foldl_affix2_segTo_acc rest s
    · exact foldl_affix2_segTo_mem rest s0 s hs

theorem segTo_lcpAll {l : List (List Char)} {c : List Char} (hne : l ≠ [])
    (hall : ∀ s ∈ l, SegTo c s) : SegTo c (lcpAll l) := by
  cases l with
  | nil => exact absurd rfl hne
  | cons s0 rest =>
    exact segTo_foldl_affix2 rest s0 c (hall s0 (by simp))
      (fun r hr => hall r (by simp [hr]))

theorem segTo_getElem? {u s : List Char} (h : SegTo u s) {o : Nat} (ho : o < u.length) :
    s[o]? = u[o]? := by
  have h2 : (s.take u.length)[o]? = u[o]? := by rw [h]
  rw [← h2, List.getElem?_take_of_lt ho]

/-- `List.find?` over `List.range n` returns the least index satisfying the
predicate. -/
theorem find?_range_eq_some :
    ∀ (p n : Nat) (pred : Nat → Bool), p < n → pred p = true →
      (∀ o, o < p → pred o = false) → (List.range n).find? pred = some p := by
  intro p
  induction p with
  | zero =>
    intro n pred hn hp _
    obtain ⟨m, rfl⟩ : ∃ m, n = m + 1 := ⟨n - 1, by omega⟩
    rw [List.range_succ_eq_map]
    simp [List.find?_cons, hp]
  | succ q ih =>
    intro n pred hn hp hlt
    obtain ⟨m, rfl⟩ : ∃ m, n = m + 1 := ⟨n - 1, by omega⟩
    rw [List.range_succ_eq_map]
    rw [List.find?_cons_of_neg _ (by simp [hlt 0 (Nat.succ_pos q)])]
    rw [List.find?_map]
    rw [ih m (pred ∘ Nat.succ) (by omega) (by simpa using hp)
      (fun o ho => by simpa using hlt (o + 1) (by omega))]
    rfl

theorem lcpAll_getElem?_eq {l : List (List Char)} {s0 : List Char} (h0 : s0 ∈ l) {s : List Char}
    (hs : s ∈ l) {o : Nat} (ho : o < lcpLen l) : s[o]? = s0[o]? := by
  rw [segTo_getElem? (lcpAll_segTo hs) ho, segTo_getElem? (lcpAll_segTo h0) ho]

/-- If the longest common affix is shorter than the first string, some string
stops the scan at exactly that offset. -/
theorem lcpAll_stop {s0 : List Char} {rest : List (List Char)}
    (hlt : lcpLen (s0 :: rest) < s0.length) :
    ∃ s ∈ s0 :: rest, s.length = lcpLen (s0 :: rest) ∨
      (lcpLen (s0 :: rest) < s.length ∧
        s[lcpLen (s0 :: rest)]? ≠ s0[lcpLen (s0 :: rest)]?) := by
  by_contra hcon
  push_neg at hcon
  set p := lcpLen (s0 :: rest) with hp
  obtain ⟨c0, hc0⟩ : ∃ c0, s0[p]? = some c0 := by
    cases hval : s0[p]? with
    | none => exact absurd (List.getElem?_eq_none_iff.mp hval) (by omega)
    | some c => exact ⟨c, rfl⟩
  have hseg : ∀ s ∈ s0 :: rest, SegTo (lcpAll (s0 :: rest) ++ [c0]) s := by
    intro s hs
    have h1 : SegTo (lcpAll (s0 :: rest)) s := lcpAll_segTo hs
    have hlen : p ≤ s.length := segTo_length_le h1
    have hne : s.length ≠ p := (hcon s hs).1
    have hlt' : p < s.length := by omega
    have hget : s[p]? = some c0 := by
      rw [(hcon s hs).2 hlt', hc0]
    unfold SegTo
    have hlc : (lcpAll (s0 :: rest) ++ [c0]).length = p + 1 := by
      simp [hp, lcpLen]
    rw [hlc, List.take_succ]
    unfold SegTo at h1
    rw [hget]
    rw [show (lcpAll (s0 :: rest)).length = p from rfl] at h1
    rw [h1]
    rfl
  have hbig : SegTo (lcpAll (s0 :: rest) ++ [c0]) (lcpAll (s0 :: rest)) :=
    segTo_lcpAll (by simp) hseg
  have := segTo_length_le hbig
  simp [lcpLen] at this

/-- When the longest common prefix ends strictly inside the first string (or
the first string is empty), `commonLength … true` computes exactly its
length. -/
theorem commonLength_true_eq (s0 : List Char) (rest : List (List Char)) (hr : rest ≠ [])
    (hp : lcpLen (s0 :: rest) < s0.length ∨ s0.length = 0) :
    commonLength (s0 :: rest) true = lcpLen (s0 :: rest) := by
  have hlen2 : ¬ ((s0 :: rest : List (List Char)).length < 2) := by
    cases rest with
    | nil => exact absurd rfl hr
    | cons r rs => simp only [List.length_cons]; omega
  have hple : ∀ s ∈ s0 :: rest, lcpLen (s0 :: rest) ≤ s.length := fun s hs =>
    segTo_length_le (lcpAll_segTo hs)
  rcases hp with hp | hp0
  · unfold commonLength
    rw [if_neg hlen2]
    have hfind : (List.range (s0 :: rest : List (List Char)).headI.length).find?
        (rowStop (s0 :: rest) (s0 :: rest).headI true) = some (lcpLen (s0 :: rest)) := by
      simp only [List.headI_cons]
      apply find?_range_eq_some _ _ _ hp
      · obtain ⟨s, hs, hcase⟩ := lcpAll_stop hp
        unfold rowStop
        rw [List.any_eq_true]
        refine ⟨s, hs, ?_⟩
        rcases hcase with hlen | ⟨hlt, hne⟩
        · simp [hlen]
        · simp [bne_iff_ne, hne]
      · intro o ho
        unfold rowStop
        rw [List.any_eq_false]
        intro s hs
        have holt : o < s.length := lt_of_lt_of_le ho (hple s hs)
        have hgeq : s[o]? = s0[o]? := lcpAll_getElem?_eq (by simp) hs ho
        have hne : s.length ≠ o := by omega
        simp [hne, hgeq]
    rw [hfind]
  · have hz : lcpLen (s0 :: rest) = 0 := by
      have := hple s0 (by simp)
      omega
    unfold commonLength
    rw [if_neg hlen2]
    simp [hp0, hz]

/-- The suffix variant: when the longest common suffix ends strictly inside
the first string (or the first string is empty), `commonLength … false`
computes exactly its length. -/
theorem commonLength_false_eq (s0 : List Char) (rest : List (List Char)) (hr : rest ≠ [])
    (hq : lcsLen (s0 :: rest) < s0.length ∨ s0.length = 0) :
    commonLength (s0 :: rest) false = lcsLen (s0 :: rest) := by
  have hlen2 : ¬ ((s0 :: rest : List (List Char)).length < 2) := by
    cases rest with
    | nil => exact absurd rfl hr
    | cons r rs => simp only [List.length_cons]; omega
  have hqq : lcpLen (s0.reverse :: rest.map List.reverse) = lcsLen (s0 :: rest) := rfl
  have hmem : ∀ s ∈ s0 :: rest,
      s.reverse ∈ (s0.reverse :: rest.map List.reverse : List (List Char)) := by
    intro s hs
    rcases List.mem_cons.mp hs with rfl | hs
    · exact List.mem_cons_self _ _
    · exact List.mem_cons_of_mem _ (List.mem_map_of_mem _ hs)
  have hple : ∀ s ∈ s0 :: rest, lcsLen (s0 :: rest) ≤ s.length := by
    intro s hs
    have h1 := segTo_length_le (lcpAll_segTo (hmem s hs))
    rw [List.length_reverse] at h1
    rw [← hqq]
    exact h1
  rcases hq with hq | hq0
  · unfold commonLength
    rw [if_neg hlen2]
    have hfind : (List.range (s0 :: rest : List (List Char)).headI.length).find?
        (rowStop (s0 :: rest) (s0 :: rest).headI false) = some (lcsLen (s0 :: rest)) := by
      simp only [List.headI_cons]
      apply find?_range_eq_some _ _ _ hq
      · have hlt0 : lcpLen (s0.reverse :: rest.map List.reverse) < s0.reverse.length := by
          rw [List.length_reverse, hqq]
          exact hq
        obtain ⟨s', hs', hcase⟩ := lcpAll_stop hlt0
        rw [hqq] at hcase
        obtain ⟨s, hs, rfl⟩ : ∃ s ∈ s0 :: rest, s.reverse = s' := by
          rcases List.mem_cons.mp hs' with rfl | hmm
          · exact ⟨s0, List.mem_cons_self _ _, rfl⟩
          · rcases List.mem_map.mp hmm with ⟨s, hsmem, rfl⟩
            exact ⟨s, List.mem_cons_of_mem _ hsmem, rfl⟩
        unfold rowStop
        rw [List.any_eq_true]
        refine ⟨s, hs, ?_⟩
        rcases hcase with hlen | ⟨hlt, hne⟩
        · rw [List.length_reverse] at hlen
          simp [hlen]
        · rw [List.length_reverse] at hlt
          have h1 : s.reverse[lcsLen (s0 :: rest)]? = s[s.length - 1 - lcsLen (s0 :: rest)]? :=
            List.getElem?_reverse hlt
          have h2 : s0.reverse[lcsLen (s0 :: rest)]? =
              s0[s0.length - 1 - lcsLen (s0 :: rest)]? :=
            List.getElem?_reverse hq
          have h3 : s[s.length - 1 - lcsLen (s0 :: rest)]? ≠
              s0[s0.length - 1 - lcsLen (s0 :: rest)]? := by
            rw [← h1, ← h2]
            exact hne
          simp [bne_iff_ne, h3]
      · intro o ho
        unfold rowStop
        rw [List.any_eq_false]
        intro s hs
        have holt : o < s.length := lt_of_lt_of_le ho (hple s hs)
        have h0lt : o < s0.length := lt_of_lt_of_le ho (hple s0 (List.mem_cons_self _ _))
        have hrev : s.reverse[o]? = s0.reverse[o]? := by
          apply lcpAll_getElem?_eq (List.mem_cons_self _ _) (hmem s hs)
          rw [hqq]
          exact ho
        have hgeq : s[s.length - 1 - o]? = s0[s0.length - 1 - o]? := by
          rw [← List.getElem?_reverse holt, ← List.getElem?_reverse h0lt, hrev]
        have hne : s.length ≠ o := by omega
        simp [hne, hgeq]
    rw [hfind]
  · have hz : lcsLen (s0 :: rest) = 0 := by
      have := hple s0 (List.mem_cons_self _ _)
      omega
    unfold commonLength
    rw [if_neg hlen2]
    simp [hq0, hz]

theorem commonLength_all_eq (s0 : List Char) (rest : List (List Char))
    (hall : ∀ s ∈ (s0 :: rest : List (List Char)), s = s0) (isPre : Bool) :
    commonLength (s0 :: rest) isPre = 0 := by
  unfold commonLength
  by_cases hlen : ((s0 :: rest : List (List Char)).length < 2)
  · rw [if_pos hlen]
  · rw [if_neg hlen]
    have hfind : (List.range (s0 :: rest : List (List Char)).headI.length).find?
        (rowStop (s0 :: rest) (s0 :: rest).headI isPre) = none := by
      rw [List.find?_eq_none]
      intro o ho
      simp only [List.headI_cons] at ho ⊢
      rw [List.mem_range] at ho
      rw [Bool.not_eq_true]
      unfold rowStop
      rw [List.any_eq_false]
      intro s hs
      rw [hall s hs]
      have hne : s0.length ≠ o := by omega
      cases isPre <;> simp [hne]
    rw [hfind]

theorem mapM_option_eq_some_map {α β : Type} (f : α → Option β) (g : α → β) :
    ∀ l : List α, (∀ a ∈ l, f a = some (g a)) → l.mapM f = some (l.map g) := by
  intro l
  induction l with
  | nil => intro _; rfl
  | cons a as ih =>
    intro h
    rw [List.map_cons, List.mapM_cons, h a (List.mem_cons_self a as),
      ih (fun x hx => h x (List.mem_cons_of_mem a hx))]
    rfl

theorem trimTitle_eq (p q : Nat) (name : List Char) (h : p + q ≤ name.length) :
    trimTitle p q name = some ((name.take (name.length - q)).drop p) := by
  unfold trimTitle goSlice
  rw [if_pos (by refine ⟨by omega, by omega, by omega⟩)]
  have h1 : ((name.length : Int) - (q : Int)).toNat = name.length - q := by omega
  have h2 : ((p : Int)).toNat = p := by omega
  rw [h1, h2]

/-- C8, amended: with at most one name, or all names equal, nothing is
trimmed.  Otherwise, when the longest common prefix (resp. suffix) either is
strictly shorter than the first listed name or that name is empty, and
`|P| + |S|` is at most every name length, every trimmed title is the name
with exactly the longest common prefix removed from the front and the longest
common suffix removed from the back.  (The exception is forced by the
counterexample: when the first name itself is the common prefix, resp. suffix,
of all the names without all names being equal, that trim length is 0.) -/
theorem trimTitles_amended (l : List (List Char)) :
    (l.length ≤ 1 → trimTitles l = some l) ∧
    ((∀ s ∈ l, s = l.headI) → trimTitles l = some l) ∧
    (∀ s0 rest, l = s0 :: rest → rest ≠ [] →
      (lcpLen l < s0.length ∨ s0.length = 0) →
      (lcsLen l < s0.length ∨ s0.length = 0) →
      (∀ s ∈ l, lcpLen l + lcsLen l ≤ s.length) →
      trimTitles l = some (l.map (fun s =>
        (s.take (s.length - lcsLen l)).drop (lcpLen l)))) := by
  refine ⟨?_, ?_, ?_⟩
  · intro h
    unfold trimTitles
    rw [if_neg (by omega)]
  · intro hall
    cases l with
    | nil => decide
    | cons s0 rest =>
      by_cases hlen : ((s0 :: rest : List (List Char)).length ≤ 1)
      · unfold trimTitles
        rw [if_neg (by omega)]
      · have hr : rest ≠ [] := by
          cases rest with
          | nil => simp at hlen
          | cons r rs => simp
        simp only [List.headI_cons] at hall
        have hp0 : commonLength (s0 :: rest) true = 0 := commonLength_all_eq s0 rest hall true
        have hq0 : commonLength (s0 :: rest) false = 0 := commonLength_all_eq s0 rest hall false
        unfold trimTitles
        rw [if_pos (by simp only [List.length_cons]; simp only [List.length_cons] at hlen; omega)]
        rw [hp0, hq0]
        have hstep : ∀ a ∈ (s0 :: rest : List (List Char)), trimTitle 0 0 a = some (id a) := by
          intro a _
          rw [trimTitle_eq 0 0 a (by omega)]
          simp
        rw [mapM_option_eq_some_map _ id _ hstep, List.map_id]
  · intro s0 rest hl hr hP hQ hsum
    subst hl
    have hp := commonLength_true_eq s0 rest hr hP
    have hq := commonLength_false_eq s0 rest hr hQ
    unfold trimTitles
    rw [if_pos (by cases rest with
      | nil => exact absurd rfl hr
      | cons r rs => simp only [List.length_cons]; omega)]
    rw [hp, hq]
    apply mapM_option_eq_some_map
    intro a ha
    exact trimTitle_eq _ _ a (hsum a ha)

/-- Concrete instance of the amended C8 statement: names `"xa.m"` and
`"xb.m"` share the prefix `"x"` and the suffix `".m"`, and the trimmed
titles are `"a"` and `"b"`. -/
theorem trimTitles_amended_witness :
    trimTitles [['x','a','.','m'], ['x','b','.','m']] =
      some (([['x','a','.','m'], ['x','b','.','m']] : List (List Char)).map (fun s =>
        (s.take (s.length - lcsLen [['x','a','.','m'], ['x','b','.','m']])).drop
          (lcpLen [['x','a','.','m'], ['x','b','.','m']]))) :=
  (trimTitles_amended _).2.2 ['x','a','.','m'] [['x','b','.','m']] rfl
    (by decide) (by decide) (by decide) (by decide)

/-- C10: for sibling file names `"aab"` and `"ab"`, `commonLength` yields
prefix length 1 and suffix length 2, and the slice `"ab"[1:0]` in
`ServeListing` is out of bounds: the handler panics. -/
theorem serveListing_trim_panics :
    commonLength [['a','a','b'], ['a','b']] true = 1 ∧
    commonLength [['a','a','b'], ['a','b']] false = 2 ∧
    trimTitles [['a','a','b'], ['a','b']] = none := by
  refine ⟨by decide, by decide, by decide⟩

/-! ## Path cleaning and queue validation (injest.go, Queue)

Go's `filepath.Clean` with the Unix separator `/`, modelled component-wise
over strings represented as `List Char`: split on the separator, drop empty
and `.` components, resolve `..` against a stack (`..` is kept for relative
paths and dropped at the root of rooted paths), and rebuild.  `filepath.Join`
joins the non-empty components with the separator and cleans the result,
yielding `""` when every component is empty.
-/

def pstr (s : String) : List Char := s.toList

def splitSepAux (cur : List Char) : List Char → List (List Char)
  | [] => [cur.reverse]
  | ch :: rest =>
    if ch = '/' then cur.reverse :: splitSepAux [] rest
    else splitSepAux (ch :: cur) rest

def splitSep (s : List Char) : List (List Char) := splitSepAux [] s

def startsWithL (s pre : List Char) : Bool :=
  match s, pre with
  | _, [] => true
  | [], _ :: _ => false
  | a :: as, b :: bs => a == b && startsWithL as bs

def pushComp (rooted : Bool) (stack : List (List Char)) (comp : List Char) :
    List (List Char) :=
  if comp = pstr "." then stack
  else if comp = pstr ".." then
    match stack with
    | top :: rem => if top = pstr ".." then comp :: stack else rem
    | [] => if rooted then [] else [comp]
  else comp :: stack

def goClean (path : List Char) : List Char :=
  let rooted : Bool := match path with | '/' :: _ => true | _ => false
  let comps := ((splitSep path).filter (fun comp => comp != [])).foldl (pushComp rooted) []
  let body := List.intercalate (pstr "/") comps.reverse
  if rooted then '/' :: body
  else if body = [] then pstr "." else body

def goJoin (parts : List (List Char)) : List Char :=
  let nonEmpty := parts.filter (fun p => p != [])
  if nonEmpty.isEmpty then [] else goClean (List.intercalate (pstr "/") nonEmpty)

example : goClean (pstr "/media/a/../b//c/") = pstr "/media/b/c" := by decide
example : goClean (pstr "../a") = pstr "../a" := by decide
example : goClean (pstr "") = pstr "." := by decide
example : goJoin [pstr "/media", pstr "../etc"] = pstr "/etc" := by decide
example : goJoin [pstr "/media", pstr "a/.."] = pstr "/media" := by decide

structure QueueOptions where
  directory : List Char
  id : Int
  force : Bool
deriving DecidableEq

inductive Task where
  | injestDir (opts : QueueOptions)
  | createThumb (absPath : List Char)
deriving DecidableEq

/-- `(*Injester).Queue`: any directory other than `"."` is rejected when the
cleaned join with the root does not start with the cleaned root followed by
the separator; otherwise an ingest task is appended to the pending stack. -/
def queueSubmit (root : List Char) (opts : QueueOptions) (pending : List Task) :
    List Task :=
  if opts.directory ≠ pstr "." then
    let absPath := goClean (goJoin [root, opts.directory])
    let expectedRoot := goClean root ++ pstr "/"
    if ¬ startsWithL absPath expectedRoot then pending
    else pending ++ [Task.injestDir opts]
  else pending ++ [Task.injestDir opts]

/-- C1: a submission with directory `"."` is always enqueued; any other
submission is enqueued exactly when cleaning the join of the root and the
directory yields a strict descendant of the cleaned root (the cleaned root
followed by the separator is a prefix of it); otherwise the pending queue is
left unchanged.  The two outcomes are distinct. -/
theorem queueSubmit_validation (root : List Char) (opts : QueueOptions)
    (pending : List Task) :
    (queueSubmit root opts pending =
      if opts.directory = pstr "." ∨
          startsWithL (goClean (goJoin [root, opts.directory])) (goClean root ++ pstr "/")
        then pending ++ [Task.injestDir opts]
        else pending) ∧
    pending ++ [Task.injestDir opts] ≠ pending := by
  constructor
  · unfold queueSubmit
    by_cases hdot : opts.directory = pstr "."
    · rw [if_neg (by simp [hdot]), if_pos (Or.inl hdot)]
    · rw [if_pos hdot]
      by_cases hpre : startsWithL (goClean (goJoin [root, opts.directory]))
          (goClean root ++ pstr "/") = true
      · rw [if_neg (by simpa using hpre), if_pos (Or.inr hpre)]
      · rw [if_pos (by simpa using hpre), if_neg (by simp [hdot, hpre])]
  · intro h
    have := congrArg List.length h
    simp at this

example :
    queueSubmit (pstr "/media") ⟨pstr "show/part 1", 0, false⟩ [] =
      [Task.injestDir ⟨pstr "show/part 1", 0, false⟩] := by decide
example : queueSubmit (pstr "/media") ⟨pstr "../etc", 0, false⟩ [] = [] := by decide
example : queueSubmit (pstr "/media") ⟨pstr "a/..", 0, false⟩ [] = [] := by decide
example :
    queueSubmit (pstr "/media") ⟨pstr ".", 7, true⟩ [] =
      [Task.injestDir ⟨pstr ".", 7, true⟩] := by decide

/-! ## Sidecar persistence (info.go, WriteInfo)

`WriteInfo` creates a fresh temporary file in the directory, encodes the
record into it, closes it, and renames it over `.info.json`; deferred calls
remove the temporary file (a no-op once it has been renamed away) and close
the handle.  The model tracks the contents of `.info.json` and of the
temporary file; `encoded` stands for the full encoder output for the record,
and a failing encode leaves some prefix of it in the temporary file.  All
intermediate filesystem states are recorded so crash points can be examined.
-/

structure SidecarFs where
  infoFile : Option String
  tmpFile : Option String
deriving DecidableEq

inductive WriteStep where
  | createTemp | encode | closeFile | rename
deriving DecidableEq

structure WriteOracle where
  failAt : Option WriteStep
  partialLen : Nat

/-- One run of `WriteInfo`: returns whether it succeeded (`err == nil`), the
final filesystem state, and the trace of every intermediate state. -/
def writeInfoTrace (o : WriteOracle) (old : Option String) (encoded : String) :
    Bool × SidecarFs × List SidecarFs :=
  let s0 : SidecarFs := { infoFile := old, tmpFile := none }
  if o.failAt = some WriteStep.createTemp then
    (false, s0, [s0])
  else
    let s1 : SidecarFs := { infoFile := old, tmpFile := some "" }
    if o.failAt = some WriteStep.encode then
      let s2 : SidecarFs := { infoFile := old, tmpFile := some (encoded.take o.partialLen) }
      let s3 : SidecarFs := { infoFile := old, tmpFile := none }
      (false, s3, [s0, s1, s2, s3])
    else
      let s2 : SidecarFs := { infoFile := old, tmpFile := some encoded }
      if o.failAt = some WriteStep.closeFile then
        let s3 : SidecarFs := { infoFile := old, tmpFile := none }
        (false, s3, [s0, s1, s2, s3])
      else if o.failAt = some WriteStep.rename then
        let s3 : SidecarFs := { infoFile := old, tmpFile := none }
        (false, s3, [s0, s1, s2, s3])
      else
        let s3 : SidecarFs := { infoFile := some encoded, tmpFile := none }
        (true, s3, [s0, s1, s2, s3])

/-- C2: on error `.info.json` still holds the previous contents and the
temporary file is gone; on success `.info.json` holds exactly the complete
encoding; and at every intermediate point `.info.json` holds either the
previous contents or the complete encoding, never a partial one. -/
theorem writeInfo_atomic (o : WriteOracle) (old : Option String) (encoded : String) :
    ((writeInfoTrace o old encoded).2.1.infoFile =
      if (writeInfoTrace o old encoded).1 then some encoded else old) ∧
    (writeInfoTrace o old encoded).2.1.tmpFile = none ∧
    ((writeInfoTrace o old encoded).2.2.all
      (fun s => s.infoFile == old || s.infoFile == some encoded)) = true := by
  rcases o with ⟨failAt, plen⟩
  rcases failAt with _ | step
  · simp [writeInfoTrace]
  · cases step <;> simp [writeInfoTrace]

/-! ## Sidecar records and reconciliation (info.go, ReadInfo)

Maps are modelled as association lists in insertion order; Go map iteration
order does not affect the properties proved below.  Directory listings are
lists of entries (`os.ReadDir` succeeded; per-entry `Info()` errors are not
modelled).  `time.Time` values are nanosecond counts with 0 as the zero time.
`strings.ToLower` is modelled on ASCII, which covers the recognized
extension set.
-/

def alookup {β : Type} (m : List (List Char × β)) (k : List Char) : Option β :=
  (m.find? (fun kv => kv.1 == k)).map (fun kv => kv.2)

def aerase {β : Type} (m : List (List Char × β)) (k : List Char) : List (List Char × β) :=
  m.filter (fun kv => kv.1 != k)

structure Entry where
  name : List Char
  isDir : Bool
  isRegular : Bool
  mtime : Nat
deriving DecidableEq

def mediaExtensions : List (List Char) :=
  [pstr ".asf", pstr ".avi", pstr ".f4v", pstr ".flv", pstr ".mkv", pstr ".mov",
   pstr ".mp4", pstr ".mpg", pstr ".ogv", pstr ".rm", pstr ".rmvb", pstr ".webm",
   pstr ".wmv"]

/-- `filepath.Ext`: the suffix starting at the final dot; empty without one. -/
def goExt (name : List Char) : List Char :=
  let rev := name.reverse
  if rev.contains '.' then '.' :: (rev.takeWhile (fun ch => ch != '.')).reverse
  else []

def lowerL (s : List Char) : List Char := s.map Char.toLower

def isMediaName (name : List Char) : Bool :=
  mediaExtensions.contains (lowerL (goExt name))

def isHiddenName (name : List Char) : Bool := startsWithL name (pstr ".")

def endsWithL (s suf : List Char) : Bool := startsWithL s.reverse suf.reverse

example : isMediaName (pstr "a.MKV") = true := by decide
example : isMediaName (pstr "a.txt") = false := by decide
example : isMediaName (pstr "@eaDir") = false := by decide

/-- In-memory `InfoType`; `changed` and `mtimes` are the transient fields. -/
structure Info where
  timestamp : Nat
  aniListID : Int
  nativeTitle : List Char
  englishTitle : List Char
  chineseTitle : List Char
  seen : List (List Char × Bool)
  injested : List (List Char × Nat)
  changed : Bool
  mtimes : List (List Char × Nat)
deriving DecidableEq

/-- The persisted fields of the sidecar (`.info.json`). -/
structure Persisted where
  timestamp : Nat
  aniListID : Int
  nativeTitle : List Char
  englishTitle : List Char
  chineseTitle : List Char
  seen : List (List Char × Bool)
  injested : List (List Char × Nat)
deriving DecidableEq

def toPersisted (i : Info) : Persisted :=
  ⟨i.timestamp, i.aniListID, i.nativeTitle, i.englishTitle, i.chineseTitle,
   i.seen, i.injested⟩

/-- Decode the sidecar file; absence yields the empty record. -/
def decodeInfo : Option Persisted → Info
  | some p => ⟨p.timestamp, p.aniListID, p.nativeTitle, p.englishTitle, p.chineseTitle,
      p.seen, p.injested, false, []⟩
  | none => ⟨0, 0, [], [], [], [], [], false, []⟩

structure ScanSt where
  info : Info
  found : List (List Char)
  migratingSeen : List (List Char)
deriving DecidableEq

/-- One step of the `ReadInfo` directory walk. -/
def readStep (migrate : Bool) (st : ScanSt) (e : Entry) : ScanSt :=
  if isHiddenName e.name then
    if migrate && decide (e.name.length > 5) && endsWithL e.name (pstr ".seen") then
      { st with migratingSeen :=
          st.migratingSeen ++ [(e.name.drop 1).take (e.name.length - 6)] }
    else st
  else if e.isDir then
    if e.name = pstr "@eaDir" then
      { st with info := { st.info with injested := aerase st.info.injested e.name } }
    else
      let st1 :=
        if (alookup st.info.injested e.name).isNone then
          { st with info := { st.info with
              injested := st.info.injested ++ [(e.name, 0)], changed := true } }
        else st
      { st1 with
        found := st1.found ++ [e.name],
        info := { st1.info with mtimes := st1.info.mtimes ++ [(e.name, e.mtime)] } }
  else if e.isRegular then
    if !(isMediaName e.name) then st
    else
      let st1 :=
        if (alookup st.info.seen e.name).isNone then
          { st with info := { st.info with
              seen := st.info.seen ++ [(e.name, false)], changed := true } }
        else st
      { st1 with
        found := st1.found ++ [e.name],
        info := { st1.info with mtimes := st1.info.mtimes ++ [(e.name, e.mtime)] } }
  else st

/-- `ReadInfo`: decode the sidecar if present (`migrate` when absent), walk
the directory reconciling `seen` and `injested`, apply the `.NAME.seen`
migration, and drop entries whose file or directory is gone. -/
def readInfo (entries : List Entry) (onDisk : Option Persisted) : Info :=
  let migrate := onDisk.isNone
  let st := entries.foldl (readStep migrate) ⟨decodeInfo onDisk, [], []⟩
  let infoM :=
    if migrate then
      { st.info with seen := st.info.seen.map (fun kv =>
          if st.migratingSeen.contains kv.1 then (kv.1, true) else kv) }
    else st.info
  let injKeep := infoM.injested.filter (fun kv => st.found.contains kv.1)
  let cInj := infoM.changed || infoM.injested.any (fun kv => !(st.found.contains kv.1))
  let seenKeep := infoM.seen.filter (fun kv => st.found.contains kv.1)
  let cSeen := cInj || infoM.seen.any (fun kv => !(st.found.contains kv.1))
  { infoM with injested := injKeep, seen := seenKeep, changed := cSeen }

/-! ## Catalog enrichment (anilist.go, requestInfo)

Network interaction is replaced by an outcome oracle; the request payload
(search string or id) does not influence the tracked state and the
title-transform regexes are therefore not modelled; the ten-second rate
limit is real time and outside the model.  Events record each request that
reaches the HTTP client.
-/

structure AniMedia where
  id : Int
  english : List Char
  native : List Char
  coverMedium : List Char
deriving DecidableEq

inductive AniListOutcome where
  | encodeErr | newRequestErr | networkErr
  | badStatus (code : Nat)
  | noBody
  | decodeErr
  | ok (media : List AniMedia)
deriving DecidableEq

inductive CoverOutcome where
  | createErr | newRequestErr | networkErr | badStatusOrNoBody | copyErr | fetched
deriving DecidableEq

inductive OpenCover where
  | opened | notExist | otherErr
deriving DecidableEq

inductive ReqErr where
  | encode | newRequest | network
  | status (code : Nat)
  | noBody | decode
  | coverCreate | coverNewRequest | coverNetwork | coverStatus | coverCopy
deriving DecidableEq

inductive Event where
  | catalogPost
  | coverGet
  | thumbnailTask (absPath : List Char)
  | childIngest (dir : List Char)
  | sidecarWrite
deriving DecidableEq

structure NetOracle where
  anilist : AniListOutcome
  coverOpen : OpenCover
  cover : CoverOutcome
  chinese : Option (List Char)
deriving DecidableEq

/-- The tail of `requestInfo` after a candidate was adopted: cover-image
fetch (`needCover := byID && force`, else required when `.cover.jpg` does
not exist), then the Chinese-title chain whose errors are logged and
swallowed. -/
def coverAndChinese (o : NetOracle) (info : Info) (byIDForce : Bool) (m : AniMedia) :
    Option ReqErr × Info × List Event :=
  let tail : List Event → Option ReqErr × Info × List Event := fun evs =>
    match o.chinese with
    | some title => (none, { info with chineseTitle := title }, evs)
    | none => (none, info, evs)
  if m.coverMedium ≠ [] then
    if byIDForce || (o.coverOpen == OpenCover.notExist) then
      match o.cover with
      | CoverOutcome.createErr => (some ReqErr.coverCreate, info, [Event.catalogPost])
      | CoverOutcome.newRequestErr => (some ReqErr.coverNewRequest, info, [Event.catalogPost])
      | CoverOutcome.networkErr =>
        (some ReqErr.coverNetwork, info, [Event.catalogPost, Event.coverGet])
      | CoverOutcome.badStatusOrNoBody =>
        (some ReqErr.coverStatus, info, [Event.catalogPost, Event.coverGet])
      | CoverOutcome.copyErr =>
        (some ReqErr.coverCopy, info, [Event.catalogPost, Event.coverGet])
      | CoverOutcome.fetched => tail [Event.catalogPost, Event.coverGet]
    else tail [Event.catalogPost]
  else tail [Event.catalogPost]

/-- Adopt the first candidate: record its id and its non-empty titles. -/
def adoptCandidate (i : Info) (m : AniMedia) : Info :=
  let info2 := { i with aniListID := m.id }
  let info3 := if m.english ≠ [] then { info2 with englishTitle := m.english } else info2
  if m.native ≠ [] then { info3 with nativeTitle := m.native } else info3

theorem adoptCandidate_id (i : Info) (m : AniMedia) :
    (adoptCandidate i m).aniListID = m.id := by
  unfold adoptCandidate
  split_ifs <;> rfl

theorem adoptCandidate_fields (i : Info) (m : AniMedia) :
    (adoptCandidate i m).seen = i.seen ∧ (adoptCandidate i m).injested = i.injested ∧
    (adoptCandidate i m).timestamp = i.timestamp ∧
    (adoptCandidate i m).mtimes = i.mtimes ∧
    (adoptCandidate i m).changed = i.changed := by
  unfold adoptCandidate
  split_ifs <;> exact ⟨rfl, rfl, rfl, rfl, rfl⟩

/-- `(*Injester).requestInfo`: skip entirely when an id is cached and no
force; otherwise issue the catalog query, record `-1` on an empty result
(negative cache), else adopt the first candidate's id and non-empty titles,
fetch the cover image if needed, and attempt the Chinese title. -/
def requestInfo (o : NetOracle) (info : Info) (force byID : Bool) :
    Option ReqErr × Info × List Event :=
  if info.aniListID ≠ 0 ∧ ¬ force then (none, info, [])
  else
    match o.anilist with
    | AniListOutcome.encodeErr => (some ReqErr.encode, info, [])
    | AniListOutcome.newRequestErr => (some ReqErr.newRequest, info, [])
    | AniListOutcome.networkErr => (some ReqErr.network, info, [Event.catalogPost])
    | AniListOutcome.badStatus code => (some (ReqErr.status code), info, [Event.catalogPost])
    | AniListOutcome.noBody => (some ReqErr.noBody, info, [Event.catalogPost])
    | AniListOutcome.decodeErr => (some ReqErr.decode, info, [Event.catalogPost])
    | AniListOutcome.ok media =>
      let info1 := { info with changed := true }
      match media with
      | [] => (none, { info1 with aniListID := -1 }, [Event.catalogPost])
      | m :: _ => coverAndChinese o (adoptCandidate info1 m) (byID && force) m

/-! ## Directory ingestion (injest.go, (*injestDirectory).Process) -/

structure ScanOut where
  lastTime : Nat
  directories : List (List Char × Nat)
  files : List (List Char)
deriving DecidableEq

def scanStep (acc : ScanOut) (e : Entry) : ScanOut :=
  if isHiddenName e.name then acc
  else if e.isDir then
    if e.name = pstr "@eaDir" then acc
    else
      { acc with
        directories := acc.directories ++ [(e.name, e.mtime)],
        lastTime := if e.mtime > acc.lastTime then e.mtime else acc.lastTime }
  else if e.isRegular then
    if isMediaName e.name then
      { acc with
        files := acc.files ++ [e.name],
        lastTime := if e.mtime > acc.lastTime then e.mtime else acc.lastTime }
    else acc
  else acc

def scanEntries (entries : List Entry) : ScanOut :=
  entries.foldl scanStep ⟨0, [], []⟩

structure ProcessOracle where
  net : NetOracle
  writeOk : Bool
deriving DecidableEq

structure ProcessResult where
  ok : Bool
  disk : Option Persisted
  events : List Event
  finalInfo : Info
deriving DecidableEq

/-- The pre-publish part of `(*injestDirectory).Process`: scan the
directory, reconcile the sidecar, run the catalog gate (enrichment errors
are swallowed), the timestamp gate (queue one thumbnail per media file) and
the child reconcile (drop vanished subdirectories, queue stale children).
Returns the in-memory record and the queued events. -/
def processCore (o : ProcessOracle) (root : List Char) (opts : QueueOptions)
    (entries : List Entry) (onDisk : Option Persisted) : Info × List Event :=
  let s := scanEntries entries
  let absPath := goJoin [root, opts.directory]
  let info0 := readInfo entries onDisk
  let step1 : Info × List Event :=
    if opts.force || opts.id ≠ info0.aniListID || info0.seen.length > 0 then
      if opts.id ≠ 0 then
        let idChanged := info0.aniListID ≠ opts.id
        let r := requestInfo o.net { info0 with aniListID := opts.id }
          (opts.force || idChanged) true
        (r.2.1, r.2.2)
      else
        let r := requestInfo o.net info0 opts.force false
        (r.2.1, r.2.2)
    else (info0, [])
  let info1 := step1.1
  let step2 : Info × List Event :=
    if opts.force || s.lastTime > info1.timestamp then
      ({ info1 with changed := true, timestamp := s.lastTime },
        s.files.map (fun f => Event.thumbnailTask (goJoin [absPath, f])))
    else (info1, [])
  let info2 := step2.1
  let info3 := { info2 with
    injested := info2.injested.filter (fun kv => (alookup s.directories kv.1).isSome) }
  let childEvents := (s.directories.filter
      (fun kv => kv.2 > (alookup info3.injested kv.1).getD 0)).map
      (fun kv => Event.childIngest (goJoin [opts.directory, kv.1]))
  let info4 := if childEvents.isEmpty then info3 else { info3 with changed := true }
  (info4, step1.2 ++ step2.2 ++ childEvents)

/-- The publish step of `Process`: when dirty, raise the timestamp to the
maximal child mtime and publish via `WriteInfo` (whose failure leaves the
previous sidecar, by `writeInfo_atomic`); otherwise skip the write. -/
def processDir (o : ProcessOracle) (root : List Char) (opts : QueueOptions)
    (entries : List Entry) (onDisk : Option Persisted) : ProcessResult :=
  let core := processCore o root opts entries onDisk
  let info4 := core.1
  let events := core.2
  if info4.changed then
    let ts := info4.mtimes.foldl (fun acc kv => if kv.2 > acc then kv.2 else acc)
        info4.timestamp
    let info5 := { info4 with timestamp := ts }
    if o.writeOk then
      ⟨true, some (toPersisted info5), events ++ [Event.sidecarWrite], info5⟩
    else ⟨false, onDisk, events, info5⟩
  else ⟨true, onDisk, events, info4⟩

/-- The claim-side set of recognized media files: non-hidden regular files
whose lowercased extension is recognized. -/
def mediaFilesOf (entries : List Entry) : List (List Char) :=
  (entries.filter (fun e => !(isHiddenName e.name) && !e.isDir && e.isRegular &&
      isMediaName e.name)).map Entry.name

/-- The claim-side set of non-hidden subdirectories other than `@eaDir`. -/
def dirNamesOf (entries : List Entry) : List (List Char) :=
  (entries.filter (fun e => !(isHiddenName e.name) && e.isDir &&
      e.name != pstr "@eaDir")).map Entry.name

/-- C5: with a cached catalog id (`catalog_id ≠ 0`, including the negative
cache `-1`) and `force == false`, `requestInfo` returns immediately: no
request reaches the HTTP client and the sidecar record is untouched. -/
theorem requestInfo_cached_skips (o : NetOracle) (info : Info) (byID : Bool)
    (h : info.aniListID ≠ 0) :
    requestInfo o info false byID = (none, info, []) := by
  unfold requestInfo
  rw [if_pos ⟨h, by simp⟩]

/-- C5 witness at the negative-cache value `-1`. -/
theorem requestInfo_cached_skips_witness :
    requestInfo ⟨AniListOutcome.ok [], OpenCover.opened, CoverOutcome.fetched, none⟩
        ⟨0, -1, [], [], [], [], [], false, []⟩ false false =
      (none, ⟨0, -1, [], [], [], [], [], false, []⟩, []) :=
  requestInfo_cached_skips _ _ _ (by decide)

/-- C6, counterexample: entering with `catalog_id = 0`, the catalog query
succeeds with candidate id 42, but the cover-image download fails: the call
returns a non-nil error while `catalog_id` has already been set to 42, so it
does not equal its value on entry. -/
theorem requestInfo_error_claim_false :
    (requestInfo ⟨AniListOutcome.ok [⟨42, [], [], pstr "u"⟩], OpenCover.notExist,
        CoverOutcome.networkErr, none⟩ (decodeInfo none) false false).1 =
      some ReqErr.coverNetwork ∧
    (requestInfo ⟨AniListOutcome.ok [⟨42, [], [], pstr "u"⟩], OpenCover.notExist,
        CoverOutcome.networkErr, none⟩ (decodeInfo none) false false).2.1.aniListID = 42 ∧
    (decodeInfo none).aniListID = 0 := by
  refine ⟨by decide, by decide, by decide⟩

def isCoverErr : ReqErr → Bool
  | ReqErr.coverCreate | ReqErr.coverNewRequest | ReqErr.coverNetwork
  | ReqErr.coverStatus | ReqErr.coverCopy => true
  | _ => false

theorem coverAndChinese_spec (o : NetOracle) (info : Info) (bf : Bool) (m : AniMedia)
    (e : ReqErr) (he : (coverAndChinese o info bf m).1 = some e) :
    isCoverErr e = true ∧ (coverAndChinese o info bf m).2.1 = info := by
  unfold coverAndChinese at he ⊢
  by_cases hcm : m.coverMedium ≠ []
  · rw [if_pos hcm] at he ⊢
    by_cases hnc : (bf || (o.coverOpen == OpenCover.notExist)) = true
    · rw [if_pos hnc] at he ⊢
      cases hcov : o.cover <;> rw [hcov] at he <;>
        first
          | (simp at he; subst he; exact ⟨rfl, rfl⟩)
          | (cases hchi : o.chinese <;> simp [hchi] at he)
    · rw [if_neg hnc] at he ⊢
      cases hchi : o.chinese <;> simp [hchi] at he
  · rw [if_neg hcm] at he ⊢
    cases hchi : o.chinese <;> simp [hchi] at he

/-- C6, amended: when `requestInfo` returns a non-nil error raised before a
candidate was adopted (request construction, network, HTTP status, missing
body, decode), `catalog_id` is unchanged; an error during the cover-image
fetch instead leaves `catalog_id` equal to the adopted candidate's id. -/
theorem requestInfo_error_amended (o : NetOracle) (info : Info) (force byID : Bool)
    (e : ReqErr) (he : (requestInfo o info force byID).1 = some e) :
    (isCoverErr e = false →
      (requestInfo o info force byID).2.1.aniListID = info.aniListID) ∧
    (isCoverErr e = true →
      ∃ m rest, o.anilist = AniListOutcome.ok (m :: rest) ∧
        (requestInfo o info force byID).2.1.aniListID = m.id) := by
  by_cases hgate : info.aniListID ≠ 0 ∧ ¬ force
  · exfalso
    unfold requestInfo at he
    rw [if_pos hgate] at he
    exact Option.noConfusion he
  · unfold requestInfo at he ⊢
    rw [if_neg hgate] at he ⊢
    rcases hani : o.anilist with _ | _ | _ | code | _ | _ | media <;> rw [hani] at he
    · simp at he; subst he
      exact ⟨fun _ => rfl, fun hc => absurd hc (by decide)⟩
    · simp at he; subst he
      exact ⟨fun _ => rfl, fun hc => absurd hc (by decide)⟩
    · simp at he; subst he
      exact ⟨fun _ => rfl, fun hc => absurd hc (by decide)⟩
    · simp at he; subst he
      exact ⟨fun _ => rfl, fun hc => by simp [isCoverErr] at hc⟩
    · simp at he; subst he
      exact ⟨fun _ => rfl, fun hc => absurd hc (by decide)⟩
    · simp at he; subst he
      exact ⟨fun _ => rfl, fun hc => absurd hc (by decide)⟩
    · cases media with
      | nil => simp at he
      | cons m rest =>
        obtain ⟨hcover, hinfo⟩ := coverAndChinese_spec _ _ _ _ _ he
        constructor
        · intro hfalse
          rw [hcover] at hfalse
          exact Bool.noConfusion hfalse
        · intro _
          refine ⟨m, rest, rfl, ?_⟩
          show (coverAndChinese o _ (byID && force) m).2.1.aniListID = m.id
          rw [hinfo]
          exact adoptCandidate_id _ m

/-- Concrete instance of the amended C6 statement at the cover-failure
counterexample input. -/
theorem requestInfo_error_amended_witness :
    (isCoverErr ReqErr.coverNetwork = false →
      (requestInfo ⟨AniListOutcome.ok [⟨42, [], [], pstr "u"⟩], OpenCover.notExist,
          CoverOutcome.networkErr, none⟩ (decodeInfo none) false false).2.1.aniListID =
        (decodeInfo none).aniListID) ∧
    (isCoverErr ReqErr.coverNetwork = true →
      ∃ m rest,
        (⟨AniListOutcome.ok [⟨42, [], [], pstr "u"⟩], OpenCover.notExist,
          CoverOutcome.networkErr, none⟩ : NetOracle).anilist =
            AniListOutcome.ok (m :: rest) ∧
        (requestInfo ⟨AniListOutcome.ok [⟨42, [], [], pstr "u"⟩], OpenCover.notExist,
            CoverOutcome.networkErr, none⟩ (decodeInfo none) false false).2.1.aniListID =
          m.id) :=
  requestInfo_error_amended _ _ false false ReqErr.coverNetwork (by decide)

/-- C9, counterexample: ingesting an empty root with the startup seed
(`{".", id:0, force:false}`, no pre-existing sidecar) writes no sidecar at
all: the reconciled record is unchanged and `Process` skips `WriteInfo`, so
there is no write event and the directory still has no `.info.json`. -/
theorem processDir_empty_root_claim_false :
    (processDir ⟨⟨AniListOutcome.ok [], OpenCover.opened, CoverOutcome.fetched, none⟩, true⟩
        (pstr "/media") ⟨pstr ".", 0, false⟩ [] none).disk = none ∧
    (processDir ⟨⟨AniListOutcome.ok [], OpenCover.opened, CoverOutcome.fetched, none⟩, true⟩
        (pstr "/media") ⟨pstr ".", 0, false⟩ [] none).events = [] := by
  refine ⟨by decide, by decide⟩

/-- C9, amended: ingesting an empty root with the startup seed succeeds,
writes no sidecar (the record is unchanged, with empty `seen`/`ingested` and
zero timestamp, and unchanged records are not persisted), issues no catalog
request, and enqueues no thumbnail or child tasks — for every network and
write oracle. -/
theorem processDir_empty_root_amended (o : ProcessOracle) :
    processDir o (pstr "/media") ⟨pstr ".", 0, false⟩ [] none =
      ⟨true, none, [], readInfo [] none⟩ := rfl

/-- C3, counterexample: the directory contains a subdirectory `x.mkv` where
a media file of the same name used to be (`seen` has the key on disk); after
a successful ingest the persisted `seen` still contains `x.mkv` although the
directory holds no media file at all. -/
theorem seen_keys_claim_false :
    (processDir ⟨⟨AniListOutcome.networkErr, OpenCover.opened, CoverOutcome.fetched, none⟩,
        true⟩ (pstr "/media") ⟨pstr ".", 0, false⟩
        [⟨pstr "x.mkv", true, false, 5⟩]
        (some ⟨0, 0, [], [], [], [(pstr "x.mkv", false)], []⟩)).ok = true ∧
    (processDir ⟨⟨AniListOutcome.networkErr, OpenCover.opened, CoverOutcome.fetched, none⟩,
        true⟩ (pstr "/media") ⟨pstr ".", 0, false⟩
        [⟨pstr "x.mkv", true, false, 5⟩]
        (some ⟨0, 0, [], [], [], [(pstr "x.mkv", false)], []⟩)).disk =
      some ⟨5, 0, [], [], [], [(pstr "x.mkv", false)], [(pstr "x.mkv", 0)]⟩ ∧
    mediaFilesOf [⟨pstr "x.mkv", true, false, 5⟩] = [] := by
  refine ⟨by decide, by decide, by decide⟩

/-! ### Association-list lemmas -/

theorem alookup_cons_pos {β : Type} (hd : List Char × β) (tl : List (List Char × β))
    (k : List Char) (h : (hd.1 == k) = true) : alookup (hd :: tl) k = some hd.2 := by
  unfold alookup
  simp [List.find?_cons, h]

theorem alookup_cons_neg {β : Type} (hd : List Char × β) (tl : List (List Char × β))
    (k : List Char) (h : (hd.1 == k) = false) : alookup (hd :: tl) k = alookup tl k := by
  unfold alookup
  simp [List.find?_cons, h]

theorem alookup_isSome_of_mem {β : Type} (m : List (List Char × β)) (kv : List Char × β)
    (h : kv ∈ m) : (alookup m kv.1).isSome = true := by
  induction m with
  | nil => simp at h
  | cons hd tl ih =>
    by_cases hb : (hd.1 == kv.1) = true
    · rw [alookup_cons_pos _ _ _ hb]
      rfl
    · rw [alookup_cons_neg _ _ _ (by simpa using hb)]
      rcases List.mem_cons.mp h with rfl | h2
      · simp at hb
      · exact ih h2

theorem alookup_append_isSome {β : Type} (m : List (List Char × β)) (n k : List Char)
    (v : β) :
    (alookup (m ++ [(n, v)]) k).isSome = ((alookup m k).isSome || (n == k)) := by
  induction m with
  | nil =>
    simp only [List.nil_append]
    by_cases hb : (n == k) = true
    · rw [alookup_cons_pos _ _ _ hb, hb]
      rfl
    · rw [alookup_cons_neg _ _ _ (by simpa using hb)]
      simp [alookup, hb]
  | cons hd tl ih =>
    by_cases hb : (hd.1 == k) = true
    · rw [List.cons_append, alookup_cons_pos _ _ _ hb, alookup_cons_pos _ _ _ hb]
      rfl
    · rw [List.cons_append, alookup_cons_neg _ _ _ (by simpa using hb),
        alookup_cons_neg _ _ _ (by simpa using hb)]
      exact ih

theorem alookup_filter {β : Type} (m : List (List Char × β)) (pred : List Char → Bool)
    (k : List Char) :
    alookup (m.filter (fun kv => pred kv.1)) k =
      if pred k = true then alookup m k else none := by
  induction m with
  | nil => cases hp : pred k <;> simp [alookup, hp]
  | cons hd tl ih =>
    rw [List.filter_cons]
    by_cases hb : (hd.1 == k) = true
    · have hk : hd.1 = k := by simpa using hb
      by_cases hp : pred k = true
      · rw [if_pos (by rw [hk]; exact hp)]
        rw [alookup_cons_pos _ _ _ hb, if_pos hp, alookup_cons_pos _ _ _ hb]
      · rw [if_neg (by rw [hk]; exact hp)]
        rw [ih, if_neg hp, if_neg hp]
    · by_cases hp : pred hd.1 = true
      · rw [if_pos hp, alookup_cons_neg _ _ _ (by simpa using hb), ih]
        by_cases hpk : pred k = true
        · rw [if_pos hpk, if_pos hpk, alookup_cons_neg _ _ _ (by simpa using hb)]
        · rw [if_neg hpk, if_neg hpk]
      · rw [if_neg hp, ih]
        by_cases hpk : pred k = true
        · rw [if_pos hpk, if_pos hpk, alookup_cons_neg _ _ _ (by simpa using hb)]
        · rw [if_neg hpk, if_neg hpk]

theorem aerase_of_none {β : Type} (m : List (List Char × β)) (n : List Char)
    (h : (alookup m n).isSome = false) : aerase m n = m := by
  unfold aerase
  rw [List.filter_eq_self]
  intro kv hkv
  by_cases hb : (kv.1 == n) = true
  · have : kv.1 = n := by simpa using hb
    rw [← this] at h
    rw [alookup_isSome_of_mem m kv hkv] at h
    exact Bool.noConfusion h
  · simpa using hb

theorem alookup_map_keyfix {β : Type} (m : List (List Char × β))
    (f : List Char × β → List Char × β) (hf : ∀ kv, (f kv).1 = kv.1) (k : List Char) :
    (alookup (m.map f) k).isSome = (alookup m k).isSome := by
  induction m with
  | nil => rfl
  | cons hd tl ih =>
    rw [List.map_cons]
    by_cases hb : (hd.1 == k) = true
    · rw [alookup_cons_pos _ _ _ (by rw [hf hd]; exact hb), alookup_cons_pos _ _ _ hb]
      rfl
    · rw [alookup_cons_neg _ _ _ (by rw [hf hd]; simpa using hb),
        alookup_cons_neg _ _ _ (by simpa using hb)]
      exact ih

theorem any_or_distrib {α : Type} (l : List α) (p q : α → Bool) :
    (l.any fun x => p x || q x) = (l.any p || l.any q) := by
  induction l with
  | nil => rfl
  | cons a as ih =>
    simp only [List.any_cons, ih]
    cases p a <;> cases q a <;> cases as.any p <;> cases as.any q <;> rfl

/-! ### Characterizing the `ReadInfo` walk -/

/-- The entry adds (or confirms) a `seen` key `k`: a non-hidden regular
media file named `k`. -/
def entryAddsSeen (e : Entry) (k : List Char) : Bool :=
  !(isHiddenName e.name) && !e.isDir && e.isRegular && isMediaName e.name && (e.name == k)

/-- The entry is a non-hidden subdirectory other than `@eaDir` named `k`. -/
def entryDirName (e : Entry) (k : List Char) : Bool :=
  !(isHiddenName e.name) && e.isDir && (e.name != pstr "@eaDir") && (e.name == k)

/-- The entry puts `k` into the walk's presence set. -/
def entryFound (e : Entry) (k : List Char) : Bool :=
  entryDirName e k || entryAddsSeen e k

theorem scan_seen_isSome (migrate : Bool) :
    ∀ (entries : List Entry) (st : ScanSt) (k : List Char),
      (alookup ((entries.foldl (readStep migrate) st).info.seen) k).isSome =
        ((alookup st.info.seen k).isSome || entries.any (fun e => entryAddsSeen e k)) := by
  intro entries
  induction entries with
  | nil => intro st k; simp
  | cons e es ih =>
    intro st k
    rw [List.foldl_cons, ih (readStep migrate st e) k, List.any_cons]
    have hstep : (alookup (readStep migrate st e).info.seen k).isSome =
        ((alookup st.info.seen k).isSome || entryAddsSeen e k) := by
      unfold readStep entryAddsSeen
      by_cases h1 : isHiddenName e.name = true
      · rw [if_pos h1]
        by_cases h2 : (migrate && decide (e.name.length > 5) &&
            endsWithL e.name (pstr ".seen")) = true
        · rw [if_pos h2]; simp [h1]
        · rw [if_neg h2]; simp [h1]
      · rw [if_neg h1]
        by_cases h2 : e.isDir = true
        · rw [if_pos h2]
          by_cases h3 : e.name = pstr "@eaDir"
          · rw [if_pos h3]; simp [h1, h2]
          · rw [if_neg h3]
            by_cases h4 : (alookup st.info.injested e.name).isNone = true
            · rw [if_pos h4]; simp [h1, h2]
            · rw [if_neg h4]; simp [h1, h2]
        · rw [if_neg h2]
          by_cases h5 : e.isRegular = true
          · rw [if_pos h5]
            by_cases h6 : isMediaName e.name = true
            · rw [if_neg (by simp [h6])]
              by_cases h7 : (alookup st.info.seen e.name).isNone = true
              · rw [if_pos h7]
                simp only []
                rw [alookup_append_isSome]
                simp [h1, h2, h5, h6]
              · rw [if_neg h7]
                simp only [h1, h2, h5, h6]
                by_cases h8 : (e.name == k) = true
                · have hk : e.name = k := by simpa using h8
                  rw [← hk]
                  simp only [Bool.not_false, Bool.true_and, h8]
                  have : (alookup st.info.seen e.name).isSome = true := by
                    cases hx : (alookup st.info.seen e.name) with
                    | none => rw [hx] at h7; simp at h7
                    | some v => rfl
                  rw [this]
                  rfl
                · simp [h8]
            · rw [if_pos (by simp [h6])]
              simp [h6]
          · rw [if_neg h5]
            simp [h5]
    rw [hstep, Bool.or_assoc]

theorem beqL_symm (a b : List Char) : (a == b) = (b == a) := by
  by_cases h : a = b
  · subst h; rfl
  · rw [beq_eq_false_iff_ne.mpr h, beq_eq_false_iff_ne.mpr (fun hh => h hh.symm)]

theorem contains_append_single (l : List (List Char)) (n k : List Char) :
    (l ++ [n]).contains k = (l.contains k || (n == k)) := by
  rw [List.contains_eq_any_beq, List.contains_eq_any_beq, List.any_append]
  simp only [List.any_cons, List.any_nil, Bool.or_false]
  rw [beqL_symm k n]

theorem scan_found_contains (migrate : Bool) :
    ∀ (entries : List Entry) (st : ScanSt) (k : List Char),
      ((entries.foldl (readStep migrate) st).found).contains k =
        (st.found.contains k || entries.any (fun e => entryFound e k)) := by
  intro entries
  induction entries with
  | nil => intro st k; simp
  | cons e es ih =>
    intro st k
    rw [List.foldl_cons, ih (readStep migrate st e) k, List.any_cons]
    have hstep : (readStep migrate st e).found.contains k =
        (st.found.contains k || entryFound e k) := by
      unfold readStep entryFound entryDirName entryAddsSeen
      by_cases h1 : isHiddenName e.name = true
      · rw [if_pos h1]
        by_cases h2 : (migrate && decide (e.name.length > 5) &&
            endsWithL e.name (pstr ".seen")) = true
        · rw [if_pos h2]; simp [h1]
        · rw [if_neg h2]; simp [h1]
      · rw [if_neg h1]
        by_cases h2 : e.isDir = true
        · rw [if_pos h2]
          by_cases h3 : e.name = pstr "@eaDir"
          · rw [if_pos h3]
            have : (e.name != pstr "@eaDir") = false := by simp [h3]
            simp [h1, h2, this]
          · rw [if_neg h3]
            have hne : (e.name != pstr "@eaDir") = true := by simp [h3]
            by_cases h4 : (alookup st.info.injested e.name).isNone = true
            · rw [if_pos h4]
              simp only []
              rw [contains_append_single]
              simp [h1, h2, hne]
            · rw [if_neg h4]
              simp only []
              rw [contains_append_single]
              simp [h1, h2, hne]
        · rw [if_neg h2]
          by_cases h5 : e.isRegular = true
          · rw [if_pos h5]
            by_cases h6 : isMediaName e.name = true
            · rw [if_neg (by simp [h6])]
              by_cases h7 : (alookup st.info.seen e.name).isNone = true
              · rw [if_pos h7]
                simp only []
                rw [contains_append_single]
                simp [h1, h2, h5, h6]
              · rw [if_neg h7]
                simp only []
                rw [contains_append_single]
                simp [h1, h2, h5, h6]
            · rw [if_pos (by simp [h6])]
              simp [h2, h6]
          · rw [if_neg h5]
            simp [h2, h5]
    rw [hstep, Bool.or_assoc]

theorem alookup_aerase_ne {β : Type} (m : List (List Char × β)) (n k : List Char)
    (h : (k != n) = true) : alookup (aerase m n) k = alookup m k := by
  unfold aerase
  induction m with
  | nil => rfl
  | cons hd tl ih =>
    rw [List.filter_cons]
    by_cases hp : (hd.1 != n) = true
    · rw [if_pos hp]
      by_cases hb : (hd.1 == k) = true
      · rw [alookup_cons_pos _ _ _ hb, alookup_cons_pos _ _ _ hb]
      · rw [alookup_cons_neg _ _ _ (by simpa using hb),
          alookup_cons_neg _ _ _ (by simpa using hb), ih]
    · rw [if_neg hp]
      have hdn : hd.1 = n := by simpa using hp
      have hbk : (hd.1 == k) = false := by
        rw [hdn, beqL_symm]
        simpa using h
      rw [ih, alookup_cons_neg _ _ _ hbk]

theorem scan_injested_isSome (migrate : Bool) (k : List Char) (hk : k ≠ pstr "@eaDir") :
    ∀ (entries : List Entry) (st : ScanSt),
      (alookup ((entries.foldl (readStep migrate) st).info.injested) k).isSome =
        ((alookup st.info.injested k).isSome ||
          entries.any (fun e => entryDirName e k)) := by
  intro entries
  induction entries with
  | nil => intro st; simp
  | cons e es ih =>
    intro st
    rw [List.foldl_cons, ih (readStep migrate st e), List.any_cons]
    have hstep : (alookup (readStep migrate st e).info.injested k).isSome =
        ((alookup st.info.injested k).isSome || entryDirName e k) := by
      unfold readStep entryDirName
      by_cases h1 : isHiddenName e.name = true
      · rw [if_pos h1]
        by_cases h2 : (migrate && decide (e.name.length > 5) &&
            endsWithL e.name (pstr ".seen")) = true
        · rw [if_pos h2]; simp [h1]
        · rw [if_neg h2]; simp [h1]
      · rw [if_neg h1]
        by_cases h2 : e.isDir = true
        · rw [if_pos h2]
          by_cases h3 : e.name = pstr "@eaDir"
          · rw [if_pos h3]
            have heq : (e.name != pstr "@eaDir") = false := by simp [h3]
            simp only []
            rw [alookup_aerase_ne st.info.injested e.name k
              (by rw [h3]; exact bne_iff_ne.mpr hk)]
            simp [heq]
          · rw [if_neg h3]
            have hne : (e.name != pstr "@eaDir") = true := by simp [h3]
            by_cases h4 : (alookup st.info.injested e.name).isNone = true
            · rw [if_pos h4]
              simp only []
              rw [alookup_append_isSome]
              simp [h1, h2, hne]
            · rw [if_neg h4]
              simp only [h1, h2, hne]
              by_cases h8 : (e.name == k) = true
              · have hkk : e.name = k := by simpa using h8
                rw [← hkk]
                simp only [Bool.not_false, Bool.true_and, h8]
                have : (alookup st.info.injested e.name).isSome = true := by
                  cases hx : (alookup st.info.injested e.name) with
                  | none => rw [hx] at h4; simp at h4
                  | some v => rfl
                rw [this]
                rfl
              · simp [h8]
        · rw [if_neg h2]
          by_cases h5 : e.isRegular = true
          · rw [if_pos h5]
            by_cases h6 : isMediaName e.name = true
            · rw [if_neg (by simp [h6])]
              by_cases h7 : (alookup st.info.seen e.name).isNone = true
              · rw [if_pos h7]; simp [h2]
              · rw [if_neg h7]; simp [h2]
            · rw [if_pos (by simp [h6])]
              simp [h2]
          · rw [if_neg h5]
            simp [h2]
    rw [hstep, Bool.or_assoc]

theorem entryFound_eaDir_false (e : Entry) : entryFound e (pstr "@eaDir") = false := by
  unfold entryFound entryDirName entryAddsSeen
  by_cases hb : (e.name == pstr "@eaDir") = true
  · have he : e.name = pstr "@eaDir" := by simpa using hb
    have h1 : (e.name != pstr "@eaDir") = false := by simp [he]
    have h2 : isMediaName e.name = false := by rw [he]; decide
    simp [h1, h2]
  · have hb2 : (e.name == pstr "@eaDir") = false := by simpa using hb
    simp [hb2]

theorem addsSeen_imp_found (e : Entry) (k : List Char) :
    entryAddsSeen e k = true → entryFound e k = true := by
  intro h
  unfold entryFound
  rw [h]
  simp

/-- C3 lemma soup: the persisted `seen` keys after a reconciling read. -/
theorem readInfo_seen_isSome (entries : List Entry) (onDisk : Option Persisted)
    (k : List Char) :
    (alookup (readInfo entries onDisk).seen k).isSome =
      (entries.any (fun e => entryAddsSeen e k) ||
        ((alookup (decodeInfo onDisk).seen k).isSome &&
          entries.any (fun e => entryDirName e k))) := by
  have hscan := scan_seen_isSome onDisk.isNone entries ⟨decodeInfo onDisk, [], []⟩ k
  have hfound := scan_found_contains onDisk.isNone entries ⟨decodeInfo onDisk, [], []⟩ k
  set st := entries.foldl (readStep onDisk.isNone) ⟨decodeInfo onDisk, [], []⟩ with hst
  have hfinal : (readInfo entries onDisk).seen =
      (if onDisk.isNone then
          { st.info with seen := st.info.seen.map (fun kv =>
              if st.migratingSeen.contains kv.1 then (kv.1, true) else kv) }
        else st.info).seen.filter (fun kv => st.found.contains kv.1) := rfl
  rw [hfinal, alookup_filter]
  have hmapkeys : (alookup (if onDisk.isNone then
      { st.info with seen := st.info.seen.map (fun kv =>
          if st.migratingSeen.contains kv.1 then (kv.1, true) else kv) }
    else st.info).seen k).isSome = (alookup st.info.seen k).isSome := by
    by_cases hm : onDisk.isNone = true
    · rw [if_pos hm]
      exact alookup_map_keyfix _ _ (fun kv => by split <;> rfl) k
    · rw [if_neg hm]
  have hor : entries.any (fun e => entryFound e k) =
      (entries.any (fun e => entryDirName e k) ||
        entries.any (fun e => entryAddsSeen e k)) := by
    rw [← any_or_distrib]
    rfl
  dsimp only at hscan hfound
  simp only [List.contains_nil, Bool.false_or] at hfound
  by_cases hc : st.found.contains k = true
  · rw [if_pos hc, hmapkeys, hscan]
    rw [hc, hor] at hfound
    cases hA : (alookup (decodeInfo onDisk).seen k).isSome <;>
      cases hB : entries.any (fun e => entryAddsSeen e k) <;>
        cases hD : entries.any (fun e => entryDirName e k) <;>
          first
            | decide
            | (rw [hB, hD] at hfound; exact absurd hfound.symm (by decide))
  · rw [if_neg hc]
    have hc2 : st.found.contains k = false := by simpa using hc
    rw [hc2, hor] at hfound
    have hB : entries.any (fun e => entryAddsSeen e k) = false := by
      cases hB : entries.any (fun e => entryAddsSeen e k)
      · rfl
      · rw [hB] at hfound
        simp at hfound
    have hD : entries.any (fun e => entryDirName e k) = false := by
      cases hD : entries.any (fun e => entryDirName e k)
      · rfl
      · rw [hD] at hfound
        simp at hfound
    rw [hB, hD]
    simp

theorem coverAndChinese_preserves (o : NetOracle) (info : Info) (bf : Bool)
    (m : AniMedia) :
    (coverAndChinese o info bf m).2.1.seen = info.seen ∧
    (coverAndChinese o info bf m).2.1.injested = info.injested ∧
    (coverAndChinese o info bf m).2.1.timestamp = info.timestamp ∧
    (coverAndChinese o info bf m).2.1.mtimes = info.mtimes ∧
    (coverAndChinese o info bf m).2.1.changed = info.changed := by
  unfold coverAndChinese
  by_cases hcm : m.coverMedium ≠ []
  · rw [if_pos hcm]
    by_cases hnc : (bf || (o.coverOpen == OpenCover.notExist)) = true
    · rw [if_pos hnc]
      cases o.cover <;>
        first
          | exact ⟨rfl, rfl, rfl, rfl, rfl⟩
          | (cases o.chinese <;> exact ⟨rfl, rfl, rfl, rfl, rfl⟩)
    · rw [if_neg hnc]
      cases o.chinese <;> exact ⟨rfl, rfl, rfl, rfl, rfl⟩
  · rw [if_neg hcm]
    cases o.chinese <;> exact ⟨rfl, rfl, rfl, rfl, rfl⟩

/-- `requestInfo` never touches `seen`, `injested`, `timestamp` or `mtimes`,
and never clears the dirty flag. -/
theorem requestInfo_preserves (o : NetOracle) (i : Info) (force byID : Bool) :
    (requestInfo o i force byID).2.1.seen = i.seen ∧
    (requestInfo o i force byID).2.1.injested = i.injested ∧
    (requestInfo o i force byID).2.1.timestamp = i.timestamp ∧
    (requestInfo o i force byID).2.1.mtimes = i.mtimes ∧
    (i.changed = true → (requestInfo o i force byID).2.1.changed = true) := by
  unfold requestInfo
  by_cases hgate : i.aniListID ≠ 0 ∧ ¬ force
  · rw [if_pos hgate]
    exact ⟨rfl, rfl, rfl, rfl, fun h => h⟩
  · rw [if_neg hgate]
    cases hani : o.anilist
    all_goals try exact ⟨rfl, rfl, rfl, rfl, fun h => h⟩
    rename_i media
    cases media with
    | nil => exact ⟨rfl, rfl, rfl, rfl, fun _ => rfl⟩
    | cons m rest =>
      obtain ⟨h1, h2, h3, h4, h5⟩ :=
        coverAndChinese_preserves o (adoptCandidate { i with changed := true } m)
          (byID && force) m
      obtain ⟨g1, g2, g3, g4, g5⟩ := adoptCandidate_fields { i with changed := true } m
      exact ⟨h1.trans g1, h2.trans g2, h3.trans g3, h4.trans g4,
        fun _ => h5.trans g5⟩

theorem readInfo_injested_eq (entries : List Entry) (onDisk : Option Persisted) :
    (readInfo entries onDisk).injested =
      (entries.foldl (readStep onDisk.isNone) ⟨decodeInfo onDisk, [], []⟩).info.injested.filter
        (fun kv =>
          (entries.foldl (readStep onDisk.isNone) ⟨decodeInfo onDisk, [], []⟩).found.contains
            kv.1) := by
  unfold readInfo
  dsimp only
  rw [apply_ite Info.injested]
  dsimp only
  rw [ite_self]

theorem readInfo_injested_isSome (entries : List Entry) (onDisk : Option Persisted)
    (k : List Char) (hk : k ≠ pstr "@eaDir") :
    (alookup (readInfo entries onDisk).injested k).isSome =
      (((alookup (decodeInfo onDisk).injested k).isSome ||
          entries.any (fun e => entryDirName e k)) &&
        entries.any (fun e => entryFound e k)) := by
  have hscan := scan_injested_isSome onDisk.isNone k hk entries ⟨decodeInfo onDisk, [], []⟩
  have hfound := scan_found_contains onDisk.isNone entries ⟨decodeInfo onDisk, [], []⟩ k
  dsimp only at hscan hfound
  simp only [List.contains_nil, Bool.false_or] at hfound
  rw [readInfo_injested_eq, alookup_filter]
  by_cases hc : (entries.foldl (readStep onDisk.isNone)
      ⟨decodeInfo onDisk, [], []⟩).found.contains k = true
  · rw [if_pos hc, hscan]
    have hf2 : entries.any (fun e => entryFound e k) = true := hfound.symm.trans hc
    rw [hf2, Bool.and_true]
  · rw [if_neg hc]
    have hc2 : (entries.foldl (readStep onDisk.isNone)
        ⟨decodeInfo onDisk, [], []⟩).found.contains k = false := by
      simpa using hc
    have hf2 : entries.any (fun e => entryFound e k) = false := hfound.symm.trans hc2
    rw [hf2, Bool.and_false]
    rfl

theorem readInfo_injested_eaDir (entries : List Entry) (onDisk : Option Persisted) :
    (alookup (readInfo entries onDisk).injested (pstr "@eaDir")).isSome = false := by
  have hfound := scan_found_contains onDisk.isNone entries ⟨decodeInfo onDisk, [], []⟩
    (pstr "@eaDir")
  dsimp only at hfound
  simp only [List.contains_nil, Bool.false_or] at hfound
  have hany : entries.any (fun e => entryFound e (pstr "@eaDir")) = false := by
    rw [List.any_eq_false]
    intro e he
    rw [entryFound_eaDir_false e]
    simp
  have hc : (entries.foldl (readStep onDisk.isNone)
      ⟨decodeInfo onDisk, [], []⟩).found.contains (pstr "@eaDir") = false :=
    hfound.trans hany
  rw [readInfo_injested_eq, alookup_filter, if_neg (by rw [hc]; simp)]
  rfl

theorem processCore_seen (o : ProcessOracle) (root : List Char) (opts : QueueOptions)
    (entries : List Entry) (onDisk : Option Persisted) :
    (processCore o root opts entries onDisk).1.seen = (readInfo entries onDisk).seen := by
  unfold processCore
  dsimp only
  split_ifs <;> (try dsimp only) <;>
    first
      | rfl
      | exact (requestInfo_preserves _ _ _ _).1

theorem processCore_changed_mono (o : ProcessOracle) (root : List Char)
    (opts : QueueOptions) (entries : List Entry) (onDisk : Option Persisted)
    (h : (readInfo entries onDisk).changed = true) :
    (processCore o root opts entries onDisk).1.changed = true := by
  unfold processCore
  dsimp only
  split_ifs <;> (try dsimp only) <;>
    first
      | rfl
      | exact h
      | exact (requestInfo_preserves _ _ _ _).2.2.2.2 h

theorem readStep_changed_mono (migrate : Bool) (st : ScanSt) (e : Entry)
    (h : st.info.changed = true) : (readStep migrate st e).info.changed = true := by
  unfold readStep
  split_ifs <;> (try dsimp only) <;> first | exact h | rfl

theorem scan_changed_mono (migrate : Bool) :
    ∀ (entries : List Entry) (st : ScanSt), st.info.changed = true →
      (entries.foldl (readStep migrate) st).info.changed = true := by
  intro entries
  induction entries with
  | nil => intro st h; exact h
  | cons e es ih =>
    intro st h
    rw [List.foldl_cons]
    exact ih _ (readStep_changed_mono migrate st e h)

theorem readStep_seen_unchanged (migrate : Bool) (st : ScanSt) (e : Entry)
    (h : (readStep migrate st e).info.changed = false) :
    (readStep migrate st e).info.seen = st.info.seen := by
  unfold readStep at h ⊢
  split_ifs at h ⊢ <;> (try dsimp only at h ⊢) <;> first | rfl | simp at h

theorem scan_seen_unchanged (migrate : Bool) :
    ∀ (entries : List Entry) (st : ScanSt),
      (entries.foldl (readStep migrate) st).info.changed = false →
      (entries.foldl (readStep migrate) st).info.seen = st.info.seen := by
  intro entries
  induction entries with
  | nil => intro st _; rfl
  | cons e es ih =>
    intro st h
    rw [List.foldl_cons] at h ⊢
    have hstep : (readStep migrate st e).info.changed = false := by
      cases hcc : (readStep migrate st e).info.changed
      · rfl
      · rw [scan_changed_mono migrate es _ hcc] at h
        exact absurd h (by decide)
    rw [ih _ h, readStep_seen_unchanged migrate st e hstep]

/-- A reconciling read that reports `changed = false` made no modification
to the `seen` map. -/
theorem readInfo_seen_unchanged (entries : List Entry) (p : Persisted)
    (h : (readInfo entries (some p)).changed = false) :
    (readInfo entries (some p)).seen = p.seen := by
  have hseen_eq : (readInfo entries (some p)).seen =
      (entries.foldl (readStep false) ⟨decodeInfo (some p), [], []⟩).info.seen.filter
        (fun kv =>
          (entries.foldl (readStep false) ⟨decodeInfo (some p), [], []⟩).found.contains
            kv.1) := rfl
  have hch_eq : (readInfo entries (some p)).changed =
      (((entries.foldl (readStep false) ⟨decodeInfo (some p), [], []⟩).info.changed ||
          (entries.foldl (readStep false) ⟨decodeInfo (some p), [], []⟩).info.injested.any
            (fun kv => !((entries.foldl (readStep false)
              ⟨decodeInfo (some p), [], []⟩).found.contains kv.1))) ||
        (entries.foldl (readStep false) ⟨decodeInfo (some p), [], []⟩).info.seen.any
          (fun kv => !((entries.foldl (readStep false)
            ⟨decodeInfo (some p), [], []⟩).found.contains kv.1))) := rfl
  rw [hch_eq] at h
  simp only [Bool.or_eq_false_iff] at h
  obtain ⟨⟨hch, _⟩, hseen⟩ := h
  rw [hseen_eq]
  have hfilter : (entries.foldl (readStep false)
      ⟨decodeInfo (some p), [], []⟩).info.seen.filter
        (fun kv => (entries.foldl (readStep false)
          ⟨decodeInfo (some p), [], []⟩).found.contains kv.1) =
      (entries.foldl (readStep false) ⟨decodeInfo (some p), [], []⟩).info.seen := by
    rw [List.filter_eq_self]
    intro kv hkv
    have h2 := List.any_eq_false.mp hseen kv hkv
    simpa using h2
  rw [hfilter, scan_seen_unchanged false entries _ hch]
  rfl

theorem entryAddsSeen_eq (e : Entry) (k : List Char) :
    entryAddsSeen e k =
      ((!(isHiddenName e.name) && !e.isDir && e.isRegular && isMediaName e.name) &&
        (e.name == k)) := by
  unfold entryAddsSeen
  simp [Bool.and_assoc]

theorem entryDirName_eq (e : Entry) (k : List Char) :
    entryDirName e k =
      ((!(isHiddenName e.name) && e.isDir && (e.name != pstr "@eaDir")) &&
        (e.name == k)) := by
  unfold entryDirName
  simp [Bool.and_assoc]

theorem contains_map_name_filter (p : Entry → Bool) (entries : List Entry)
    (k : List Char) :
    ((entries.filter p).map Entry.name).contains k =
      entries.any (fun e => p e && (e.name == k)) := by
  induction entries with
  | nil => rfl
  | cons e es ih =>
    rw [List.filter_cons, List.any_cons]
    by_cases hp : p e = true
    · rw [if_pos hp, List.map_cons, List.contains_cons, ih, hp, beqL_symm k e.name]
      simp
    · rw [if_neg hp, ih]
      have hp2 : p e = false := by simpa using hp
      rw [hp2]
      simp

theorem contains_mediaFilesOf (entries : List Entry) (k : List Char) :
    (mediaFilesOf entries).contains k = entries.any (fun e => entryAddsSeen e k) := by
  unfold mediaFilesOf
  rw [contains_map_name_filter]
  unfold entryAddsSeen
  simp [Bool.and_assoc]

theorem contains_dirNamesOf (entries : List Entry) (k : List Char) :
    (dirNamesOf entries).contains k = entries.any (fun e => entryDirName e k) := by
  unfold dirNamesOf
  rw [contains_map_name_filter]
  unfold entryDirName
  simp [Bool.and_assoc]

/-- C3, amended: after every successful ingest, the key set of the persisted
sidecar's `seen` map equals the set of non-hidden regular recognized-media
files in the directory, together with those previously present `seen` keys
whose entry is now a non-hidden subdirectory other than `@eaDir` (a key
whose file was replaced by a same-named directory is retained). -/
theorem processDir_seen_keys_amended (o : ProcessOracle) (root : List Char)
    (opts : QueueOptions) (entries : List Entry) (onDisk : Option Persisted)
    (p : Persisted) (k : List Char)
    (hok : (processDir o root opts entries onDisk).ok = true)
    (hdisk : (processDir o root opts entries onDisk).disk = some p) :
    (alookup p.seen k).isSome =
      ((mediaFilesOf entries).contains k ||
        ((alookup (decodeInfo onDisk).seen k).isSome &&
          (dirNamesOf entries).contains k)) := by
  rw [contains_mediaFilesOf, contains_dirNamesOf, ← readInfo_seen_isSome entries onDisk k]
  unfold processDir at hok hdisk
  dsimp only at hok hdisk
  by_cases hch : (processCore o root opts entries onDisk).1.changed = true
  · rw [if_pos hch] at hok hdisk
    by_cases hw : o.writeOk = true
    · rw [if_pos hw] at hdisk
      dsimp only at hdisk
      have hp : p.seen = (processCore o root opts entries onDisk).1.seen := by
        have := Option.some.inj hdisk
        rw [← this]
        rfl
      rw [hp, processCore_seen]
    · rw [if_neg hw] at hok
      dsimp only at hok
      exact Bool.noConfusion hok
  · rw [if_neg hch] at hdisk
    dsimp only at hdisk
    have hch2 : (processCore o root opts entries onDisk).1.changed = false := by
      simpa using hch
    have hr : (readInfo entries onDisk).changed = false := by
      cases hcc : (readInfo entries onDisk).changed
      · rfl
      · rw [processCore_changed_mono o root opts entries onDisk hcc] at hch2
        exact absurd hch2 (by decide)
    cases onDisk with
    | none => exact Option.noConfusion hdisk
    | some p0 =>
      have hpp : p0 = p := Option.some.inj hdisk
      subst hpp
      rw [readInfo_seen_unchanged entries p0 hr]

/-- Concrete instance of the amended C3 statement at the kind-change
counterexample input. -/
theorem processDir_seen_keys_amended_witness :
    (alookup (⟨5, 0, [], [], [], [(pstr "x.mkv", false)],
        [(pstr "x.mkv", 0)]⟩ : Persisted).seen (pstr "x.mkv")).isSome =
      ((mediaFilesOf [⟨pstr "x.mkv", true, false, 5⟩]).contains (pstr "x.mkv") ||
        ((alookup (decodeInfo (some ⟨0, 0, [], [], [], [(pstr "x.mkv", false)], []⟩)).seen
            (pstr "x.mkv")).isSome &&
          (dirNamesOf [⟨pstr "x.mkv", true, false, 5⟩]).contains (pstr "x.mkv"))) :=
  processDir_seen_keys_amended
    ⟨⟨AniListOutcome.networkErr, OpenCover.opened, CoverOutcome.fetched, none⟩, true⟩
    (pstr "/media") ⟨pstr ".", 0, false⟩ [⟨pstr "x.mkv", true, false, 5⟩]
    (some ⟨0, 0, [], [], [], [(pstr "x.mkv", false)], []⟩)
    ⟨5, 0, [], [], [], [(pstr "x.mkv", false)], [(pstr "x.mkv", 0)]⟩
    (pstr "x.mkv") (by decide) (by decide)

/-! ### Idempotence of the reconciling read (C4) -/

theorem readStep_fixed_fields (m : Bool) (st : ScanSt) (e : Entry) :
    (readStep m st e).info.timestamp = st.info.timestamp ∧
    (readStep m st e).info.aniListID = st.info.aniListID ∧
    (readStep m st e).info.nativeTitle = st.info.nativeTitle ∧
    (readStep m st e).info.englishTitle = st.info.englishTitle ∧
    (readStep m st e).info.chineseTitle = st.info.chineseTitle := by
  unfold readStep
  split_ifs <;> (try dsimp only) <;> exact ⟨rfl, rfl, rfl, rfl, rfl⟩

theorem scan_fixed_fields (m : Bool) :
    ∀ (entries : List Entry) (st : ScanSt),
      (entries.foldl (readStep m) st).info.timestamp = st.info.timestamp ∧
      (entries.foldl (readStep m) st).info.aniListID = st.info.aniListID ∧
      (entries.foldl (readStep m) st).info.nativeTitle = st.info.nativeTitle ∧
      (entries.foldl (readStep m) st).info.englishTitle = st.info.englishTitle ∧
      (entries.foldl (readStep m) st).info.chineseTitle = st.info.chineseTitle := by
  intro entries
  induction entries with
  | nil => intro st; exact ⟨rfl, rfl, rfl, rfl, rfl⟩
  | cons e es ih =>
    intro st
    rw [List.foldl_cons]
    obtain ⟨a1, a2, a3, a4, a5⟩ := ih (readStep m st e)
    obtain ⟨b1, b2, b3, b4, b5⟩ := readStep_fixed_fields m st e
    exact ⟨a1.trans b1, a2.trans b2, a3.trans b3, a4.trans b4, a5.trans b5⟩

/-- If the entry's `seen`/`injested` key is already present (and `@eaDir` is
absent from `injested`), the walk step leaves the maps and the dirty flag
untouched. -/
theorem readStep_stable (st : ScanSt) (e : Entry)
    (hdir : (!(isHiddenName e.name) && e.isDir && (e.name != pstr "@eaDir")) = true →
        (alookup st.info.injested e.name).isSome = true)
    (hfile : (!(isHiddenName e.name) && !e.isDir && e.isRegular &&
        isMediaName e.name) = true →
        (alookup st.info.seen e.name).isSome = true)
    (hea : (alookup st.info.injested (pstr "@eaDir")).isSome = false) :
    (readStep false st e).info.seen = st.info.seen ∧
    (readStep false st e).info.injested = st.info.injested ∧
    (readStep false st e).info.changed = st.info.changed := by
  unfold readStep
  by_cases h1 : isHiddenName e.name = true
  · rw [if_pos h1, if_neg (by simp)]
    exact ⟨rfl, rfl, rfl⟩
  · rw [if_neg h1]
    by_cases h2 : e.isDir = true
    · rw [if_pos h2]
      by_cases h3 : e.name = pstr "@eaDir"
      · rw [if_pos h3, h3, aerase_of_none _ _ hea]
        exact ⟨rfl, rfl, rfl⟩
      · rw [if_neg h3]
        have hl := hdir (by simp [h1, h2, h3])
        have hnone : (alookup st.info.injested e.name).isNone = false := by
          cases hx : alookup st.info.injested e.name
          · rw [hx] at hl; exact absurd hl (by decide)
          · rfl
        rw [if_neg (by rw [hnone]; decide)]
        exact ⟨rfl, rfl, rfl⟩
    · rw [if_neg h2]
      by_cases h5 : e.isRegular = true
      · rw [if_pos h5]
        by_cases h6 : isMediaName e.name = true
        · rw [if_neg (by simp [h6])]
          have hl := hfile (by simp [h1, h2, h5, h6])
          have hnone : (alookup st.info.seen e.name).isNone = false := by
            cases hx : alookup st.info.seen e.name
            · rw [hx] at hl; exact absurd hl (by decide)
            · rfl
          rw [if_neg (by rw [hnone]; decide)]
          exact ⟨rfl, rfl, rfl⟩
        · rw [if_pos (by simp [h6])]
          exact ⟨rfl, rfl, rfl⟩
      · rw [if_neg h5]
        exact ⟨rfl, rfl, rfl⟩

theorem scan_stable :
    ∀ (entries : List Entry) (st : ScanSt),
      (∀ e ∈ entries,
        (!(isHiddenName e.name) && e.isDir && (e.name != pstr "@eaDir")) = true →
          (alookup st.info.injested e.name).isSome = true) →
      (∀ e ∈ entries,
        (!(isHiddenName e.name) && !e.isDir && e.isRegular &&
          isMediaName e.name) = true →
          (alookup st.info.seen e.name).isSome = true) →
      (alookup st.info.injested (pstr "@eaDir")).isSome = false →
      (entries.foldl (readStep false) st).info.seen = st.info.seen ∧
      (entries.foldl (readStep false) st).info.injested = st.info.injested ∧
      (entries.foldl (readStep false) st).info.changed = st.info.changed := by
  intro entries
  induction entries with
  | nil => intro st _ _ _; exact ⟨rfl, rfl, rfl⟩
  | cons e es ih =>
    intro st hdirs hfiles hea
    rw [List.foldl_cons]
    obtain ⟨hs, hi, hc⟩ := readStep_stable st e
      (hdirs e (List.mem_cons_self e es))
      (hfiles e (List.mem_cons_self e es)) hea
    obtain ⟨rs, ri, rc⟩ := ih (readStep false st e)
      (fun e2 he2 hcond => by rw [hi]; exact hdirs e2 (List.mem_cons_of_mem e he2) hcond)
      (fun e2 he2 hcond => by rw [hs]; exact hfiles e2 (List.mem_cons_of_mem e he2) hcond)
      (by rw [hi]; exact hea)
    exact ⟨rs.trans hs, ri.trans hi, rc.trans hc⟩

/-- C4: a reconciling read followed by persisting and a second reconciling
read yields the same persistent fields (timestamp, catalog id, titles,
`seen`, `ingested`), with the dirty flag clear the second time. -/
theorem readInfo_idempotent (entries : List Entry) (p0 : Persisted) :
    (readInfo entries (some (toPersisted (readInfo entries (some p0))))).timestamp =
        (readInfo entries (some p0)).timestamp ∧
    (readInfo entries (some (toPersisted (readInfo entries (some p0))))).aniListID =
        (readInfo entries (some p0)).aniListID ∧
    (readInfo entries (some (toPersisted (readInfo entries (some p0))))).nativeTitle =
        (readInfo entries (some p0)).nativeTitle ∧
    (readInfo entries (some (toPersisted (readInfo entries (some p0))))).englishTitle =
        (readInfo entries (some p0)).englishTitle ∧
    (readInfo entries (some (toPersisted (readInfo entries (some p0))))).chineseTitle =
        (readInfo entries (some p0)).chineseTitle ∧
    (readInfo entries (some (toPersisted (readInfo entries (some p0))))).seen =
        (readInfo entries (some p0)).seen ∧
    (readInfo entries (some (toPersisted (readInfo entries (some p0))))).injested =
        (readInfo entries (some p0)).injested ∧
    (readInfo entries (some (toPersisted (readInfo entries (some p0))))).changed =
        false := by
  set r1 := readInfo entries (some p0) with hr1
  set st2 := entries.foldl (readStep false)
      ⟨decodeInfo (some (toPersisted r1)), [], []⟩ with hst2
  have h2seen : (readInfo entries (some (toPersisted r1))).seen =
      st2.info.seen.filter (fun kv => st2.found.contains kv.1) := rfl
  have h2inj : (readInfo entries (some (toPersisted r1))).injested =
      st2.info.injested.filter (fun kv => st2.found.contains kv.1) := rfl
  have h2chg : (readInfo entries (some (toPersisted r1))).changed =
      ((st2.info.changed ||
          st2.info.injested.any (fun kv => !(st2.found.contains kv.1))) ||
        st2.info.seen.any (fun kv => !(st2.found.contains kv.1))) := rfl
  have h2ts : (readInfo entries (some (toPersisted r1))).timestamp =
      st2.info.timestamp := rfl
  have h2id : (readInfo entries (some (toPersisted r1))).aniListID =
      st2.info.aniListID := rfl
  have h2nt : (readInfo entries (some (toPersisted r1))).nativeTitle =
      st2.info.nativeTitle := rfl
  have h2et : (readInfo entries (some (toPersisted r1))).englishTitle =
      st2.info.englishTitle := rfl
  have h2ct : (readInfo entries (some (toPersisted r1))).chineseTitle =
      st2.info.chineseTitle := rfl
  have hdirs : ∀ e ∈ entries,
      (!(isHiddenName e.name) && e.isDir && (e.name != pstr "@eaDir")) = true →
      (alookup (⟨decodeInfo (some (toPersisted r1)), [], []⟩ : ScanSt).info.injested
        e.name).isSome = true := by
    intro e he hcond
    show (alookup r1.injested e.name).isSome = true
    simp only [Bool.and_eq_true] at hcond
    obtain ⟨⟨ha, hb⟩, hc⟩ := hcond
    have hkne : e.name ≠ pstr "@eaDir" := by simpa using hc
    rw [hr1, readInfo_injested_isSome entries (some p0) e.name hkne]
    have hdirAny : entries.any (fun e2 => entryDirName e2 e.name) = true :=
      List.any_eq_true.mpr ⟨e, he, by unfold entryDirName; simp [ha, hb, hc]⟩
    have hfoundAny : entries.any (fun e2 => entryFound e2 e.name) = true := by
      have hor : entries.any (fun e2 => entryFound e2 e.name) =
          (entries.any (fun e2 => entryDirName e2 e.name) ||
            entries.any (fun e2 => entryAddsSeen e2 e.name)) := by
        rw [← any_or_distrib]
        rfl
      rw [hor, hdirAny]
      rfl
    rw [hdirAny, hfoundAny]
    simp
  have hfiles : ∀ e ∈ entries,
      (!(isHiddenName e.name) && !e.isDir && e.isRegular && isMediaName e.name) = true →
      (alookup (⟨decodeInfo (some (toPersisted r1)), [], []⟩ : ScanSt).info.seen
        e.name).isSome = true := by
    intro e he hcond
    show (alookup r1.seen e.name).isSome = true
    simp only [Bool.and_eq_true] at hcond
    obtain ⟨⟨⟨ha, hb⟩, hc⟩, hd⟩ := hcond
    rw [hr1, readInfo_seen_isSome entries (some p0) e.name]
    have hAddsAny : entries.any (fun e2 => entryAddsSeen e2 e.name) = true :=
      List.any_eq_true.mpr ⟨e, he, by unfold entryAddsSeen; simp [ha, hb, hc, hd]⟩
    rw [hAddsAny]
    rfl
  have hea : (alookup (⟨decodeInfo (some (toPersisted r1)), [], []⟩ : ScanSt).info.injested
      (pstr "@eaDir")).isSome = false := by
    show (alookup r1.injested (pstr "@eaDir")).isSome = false
    rw [hr1]
    exact readInfo_injested_eaDir entries (some p0)
  obtain ⟨hsS, hsI, hsC⟩ := scan_stable entries _ hdirs hfiles hea
  have hsS2 : st2.info.seen = r1.seen := hsS
  have hsI2 : st2.info.injested = r1.injested := hsI
  have hsC2 : st2.info.changed = false := hsC
  have hfound2 : ∀ k, st2.found.contains k = entries.any (fun e => entryFound e k) := by
    intro k
    have h := scan_found_contains false entries
      ⟨decodeInfo (some (toPersisted r1)), [], []⟩ k
    dsimp only at h
    simp only [List.contains_nil, Bool.false_or] at h
    exact h
  have hkeepSeen : st2.info.seen.filter (fun kv => st2.found.contains kv.1) =
      st2.info.seen := by
    rw [List.filter_eq_self]
    intro kv hkv
    rw [hsS2] at hkv
    have hiso := alookup_isSome_of_mem r1.seen kv hkv
    rw [hr1, readInfo_seen_isSome entries (some p0) kv.1] at hiso
    rw [hfound2 kv.1]
    have hor : entries.any (fun e => entryFound e kv.1) =
        (entries.any (fun e => entryDirName e kv.1) ||
          entries.any (fun e => entryAddsSeen e kv.1)) := by
      rw [← any_or_distrib]
      rfl
    rw [hor]
    cases hB : entries.any (fun e => entryAddsSeen e kv.1) <;>
      cases hD : entries.any (fun e => entryDirName e kv.1) <;>
        rw [hB, hD] at hiso <;> first | rfl | (simp at hiso) | simp
  have hkeepInj : st2.info.injested.filter (fun kv => st2.found.contains kv.1) =
      st2.info.injested := by
    rw [List.filter_eq_self]
    intro kv hkv
    rw [hsI2] at hkv
    have hiso := alookup_isSome_of_mem r1.injested kv hkv
    by_cases hkea : kv.1 = pstr "@eaDir"
    · rw [hkea, hr1, readInfo_injested_eaDir entries (some p0)] at hiso
      exact absurd hiso (by decide)
    · rw [hr1, readInfo_injested_isSome entries (some p0) kv.1 hkea] at hiso
      rw [hfound2 kv.1]
      simp only [Bool.and_eq_true] at hiso
      exact hiso.2
  have hnoDropSeen : st2.info.seen.any (fun kv => !(st2.found.contains kv.1)) = false := by
    rw [List.any_eq_false]
    intro kv hkv
    have hcont := (List.filter_eq_self.mp hkeepSeen) kv hkv
    rw [hcont]
    decide
  have hnoDropInj : st2.info.injested.any (fun kv => !(st2.found.contains kv.1)) =
      false := by
    rw [List.any_eq_false]
    intro kv hkv
    have hcont := (List.filter_eq_self.mp hkeepInj) kv hkv
    rw [hcont]
    decide
  refine ⟨?_, ?_, ?_, ?_, ?_, ?_, ?_, ?_⟩
  · rw [h2ts]
    exact (scan_fixed_fields false entries _).1
  · rw [h2id]
    exact (scan_fixed_fields false entries _).2.1
  · rw [h2nt]
    exact (scan_fixed_fields false entries _).2.2.1
  · rw [h2et]
    exact (scan_fixed_fields false entries _).2.2.2.1
  · rw [h2ct]
    exact (scan_fixed_fields false entries _).2.2.2.2
  · rw [h2seen, hkeepSeen]
    exact hsS2
  · rw [h2inj, hkeepInj]
    exact hsI2
  · rw [h2chg, hnoDropInj, hnoDropSeen, hsC2]
    rfl

end VideoListing
